import Mathlib

/-!
Verification of the dutree disk-usage scanner (dutree/dutree.py).

The development embeds the two core components of the program:

* `DuNode` — the disk usage tree node (class `DuNode`): a leaf carries the
  fixed `_app_size`/`_use_size` pair of a file, a collapsed directory or a
  synthetic "leftovers" bucket, while a `branch` is an internal directory
  node whose sizes are the sums over its children (`_nodes`).
  The pruning pass `prune_if_smaller_than` and the post-pass
  `merge_upwards_if_smaller_than` are translated function by function.
  The in-place node removals of the merge pass are modelled on `MNode`,
  a copy of the tree where removed leaves are marked dead, so that the
  positions computed by `_find_small_nodes` stay valid while the pass runs.

* `DuScan` — the filesystem walker (`_scan` / `_scan_inner`), driven by an
  in-memory filesystem tree `FSNode` standing for the `listdir`/`lstat`
  capability; `gone` entries make `lstat` fail and a `dir` with `none`
  listing makes `listdir` fail.  The walker threads a `ScanState` with the
  two global subtotals and, for the statements about thresholds, records a
  `ScanEvent` at every significance decision.
-/

set_option linter.unusedVariables false

namespace Dutree

/-- Disk usage tree node (dutree.py class `DuNode`).  A `leaf` has a fixed
size pair (`_nodes is None` in the source); `isdir` is `some true` for a
directory, `some false` for a file and `none` for a synthetic "mixed"
leftovers node.  A `branch` is an internal node with children; in the
source only directory nodes (`isdir=True`) can be internal, so the flag is
omitted for branches. -/
inductive DuNode : Type where
  | leaf (path : String) (isdir : Option Bool) (app usz : Nat)
  | branch (path : String) (nodes : List DuNode)

mutual
/-- Total apparent size including children (`DuNode.app_size`). -/
def DuNode.app_size : DuNode → Nat
  | .leaf _ _ a _ => a
  | .branch _ ns => DuNode.app_size_list ns
def DuNode.app_size_list : List DuNode → Nat
  | [] => 0
  | n :: ns => DuNode.app_size n + DuNode.app_size_list ns
end

mutual
/-- Total used size including children (`DuNode.use_size`). -/
def DuNode.use_size : DuNode → Nat
  | .leaf _ _ _ u => u
  | .branch _ ns => DuNode.use_size_list ns
def DuNode.use_size_list : List DuNode → Nat
  | [] => 0
  | n :: ns => DuNode.use_size n + DuNode.use_size_list ns
end

/-- The `_isdir is None` test of the source: a synthetic mixed node. -/
def DuNode.isMixedB : DuNode → Bool
  | .leaf _ none _ _ => true
  | _ => false

/-- The `_path` field. -/
def DuNode.pathOf : DuNode → String
  | .leaf p _ _ _ => p
  | .branch p _ => p

/-- The fixed `_app_size` field of a leaf (internal nodes carry none). -/
def DuNode.fixApp : DuNode → Nat
  | .leaf _ _ a _ => a
  | .branch _ _ => 0

/-- The fixed `_use_size` field of a leaf. -/
def DuNode.fixUse : DuNode → Nat
  | .leaf _ _ _ u => u
  | .branch _ _ => 0

/-- Leaf test (`self._nodes is None`). -/
def DuNode.isLeafB : DuNode → Bool
  | .leaf _ _ _ _ => true
  | .branch _ _ => false

/-- Child list of a node (`_nodes`, empty for leaves). -/
def DuNode.getChildren : DuNode → List DuNode
  | .leaf _ _ _ _ => []
  | .branch _ ns => ns

/-- The size driving a decision: `self.app_size() if a_or_u else
self.use_size()` (lines 158 and 178 of the source). -/
def DuNode.metricSel (m : Bool) (n : DuNode) : Nat :=
  if m then n.app_size else n.use_size

/-- Constructor `DuNode.new_leftovers`: path gets `'/\xff*'` appended — the
`U+00FF` character makes the leftovers line sort after ordinary names. -/
def DuNode.new_leftovers (pathname : String) (a u : Nat) : DuNode :=
  .leaf (pathname ++ "/ÿ*") none a u

/-- Method `_add_size` (only ever called on leaves). -/
def DuNode.add_size : DuNode → Nat → Nat → DuNode
  | .leaf p k a u, da, du => .leaf p k (a + da) (u + du)
  | .branch p ns, _, _ => .branch p ns

/-- Lines 195–211 of `_prune_some_if_small`: given the kept children and
the accumulated pruned sizes, either collapse the node, grow a trailing
leftovers child, append a fresh leftovers child, or keep the children
unchanged when nothing was pruned. -/
def DuNode.prune_finish (p : String) (keep : List DuNode) (pApp pUse : Nat) : DuNode :=
  if pApp ≠ 0 ∨ pUse ≠ 0 then
    match keep.getLast? with
    | none => .leaf p (some true) pApp pUse
    | some la =>
      if la.isMixedB then .branch p (keep.dropLast ++ [la.add_size pApp pUse])
      else .branch p (keep ++ [DuNode.new_leftovers p pApp pUse])
  else .branch p keep

/-- Method `_prune_some_if_small`: partition the children into kept
(size at least `t` under the chosen metric) and pruned ones, fold a lonely
surviving mixed node into the pruned bucket, then finish. -/
def DuNode.prune_some_if_small (t : Nat) (m : Bool) (p : String) (cs : List DuNode) : DuNode :=
  let keep0 := cs.filter (fun n => !decide (DuNode.metricSel m n < t))
  let pruned := cs.filter (fun n => decide (DuNode.metricSel m n < t))
  let pApp0 := DuNode.app_size_list pruned
  let pUse0 := DuNode.use_size_list pruned
  match keep0 with
  | [k] =>
    if k.isMixedB then DuNode.prune_finish p [] (pApp0 + k.fixApp) (pUse0 + k.fixUse)
    else DuNode.prune_finish p keep0 pApp0 pUse0
  | _ => DuNode.prune_finish p keep0 pApp0 pUse0

mutual
/-- Method `prune_if_smaller_than` together with `_prune_all_if_small`:
a leaf is left alone; an internal node whose total is under the threshold
collapses into a leaf (keeping both totals); otherwise the children are
pruned recursively and then `_prune_some_if_small` runs on this node. -/
def DuNode.prune_if_smaller_than (t : Nat) (m : Bool) : DuNode → DuNode
  | .leaf p k a u => .leaf p k a u
  | .branch p cs =>
    if DuNode.metricSel m (.branch p cs) < t then
      .leaf p (some true) (DuNode.app_size_list cs) (DuNode.use_size_list cs)
    else
      DuNode.prune_some_if_small t m p (DuNode.prune_list t m cs)
def DuNode.prune_list (t : Nat) (m : Bool) : List DuNode → List DuNode
  | [] => []
  | c :: cs => DuNode.prune_if_smaller_than t m c :: DuNode.prune_list t m cs
end

mutual
/-- Collect the leaves, in tree order (`DuNode._get_leaves`). -/
def DuNode.get_leaves_raw : DuNode → List DuNode
  | .leaf p k a u => [.leaf p k a u]
  | .branch _ ns => DuNode.get_leaves_raw_list ns
def DuNode.get_leaves_raw_list : List DuNode → List DuNode
  | [] => []
  | n :: ns => DuNode.get_leaves_raw n ++ DuNode.get_leaves_raw_list ns
end

/-- The sort key of `get_leaves`: compare nodes by their `_path` string
(code point order, as Python compares strings). -/
def duPathLe (a b : DuNode) : Prop := a.pathOf ≤ b.pathOf

instance : DecidableRel duPathLe := fun a b =>
  inferInstanceAs (Decidable (a.pathOf ≤ b.pathOf))

/-- Method `get_leaves`: the leaves sorted by path.  The source uses
Python's stable `list.sort(key=path)`; a stable insertion sort by the same
total key produces the identical list. -/
def DuNode.get_leaves (n : DuNode) : List DuNode :=
  List.insertionSort duPathLe n.get_leaves_raw

/-- Shift a position one sibling to the right. -/
def bumpHead : List Nat → List Nat
  | [] => []
  | i :: q => (i + 1) :: q

mutual
/-- Positions (index paths from the root) of the leaves whose metric size
is under the threshold, in depth-first order — `_find_small_nodes`
collects exactly these nodes together with their ancestor chains. -/
def DuNode.findSmallPos (t : Nat) (m : Bool) : DuNode → List (List Nat)
  | .leaf _ _ a u => if (if m then a else u) < t then [[]] else []
  | .branch _ cs => DuNode.findSmallPosList t m cs
def DuNode.findSmallPosList (t : Nat) (m : Bool) : List DuNode → List (List Nat)
  | [] => []
  | c :: cs =>
    (DuNode.findSmallPos t m c).map (fun q => 0 :: q) ++
      (DuNode.findSmallPosList t m cs).map bumpHead
end

mutual
/-- Look up the node at an index path. -/
def DuNode.getNodeD : DuNode → List Nat → Option DuNode
  | n, [] => some n
  | .leaf _ _ _ _, _ :: _ => none
  | .branch _ cs, i :: q => DuNode.getNodeD_list cs i q
def DuNode.getNodeD_list : List DuNode → Nat → List Nat → Option DuNode
  | [], _, _ => none
  | c :: _, 0, q => DuNode.getNodeD c q
  | _ :: cs, i + 1, q => DuNode.getNodeD_list cs i q
end

/-- Merge-pass working tree: the same shape as `DuNode` but a leaf carries
a `dead` mark.  `merge_upwards_if_smaller_than` removes leaves from child
lists while walking positions computed beforehand; marking a removed leaf
dead instead keeps every position valid and the list of live children of
any node equal to the source's `_nodes` list at the same moment. -/
inductive MNode : Type where
  | leaf (path : String) (isdir : Option Bool) (app usz : Nat) (dead : Bool)
  | branch (path : String) (nodes : List MNode)

/-- Dead mark of a working-tree node (never set on a branch). -/
def MNode.isDead : MNode → Bool
  | .leaf _ _ _ _ d => d
  | .branch _ _ => false

mutual
/-- Copy a `DuNode` tree into the working tree, everything alive. -/
def DuNode.toM : DuNode → MNode
  | .leaf p k a u => .leaf p k a u false
  | .branch p ns => .branch p (DuNode.toM_list ns)
def DuNode.toM_list : List DuNode → List MNode
  | [] => []
  | n :: ns => DuNode.toM n :: DuNode.toM_list ns
end

mutual
/-- Read the final tree back out, dropping the removed (dead) leaves. -/
def MNode.extract : MNode → DuNode
  | .leaf p k a u _ => .leaf p k a u
  | .branch p ns => .branch p (MNode.extract_list ns)
def MNode.extract_list : List MNode → List DuNode
  | [] => []
  | n :: ns =>
    if n.isDead then MNode.extract_list ns
    else MNode.extract n :: MNode.extract_list ns
end

mutual
/-- Total apparent size of the live part of a working tree. -/
def MNode.appTotal : MNode → Nat
  | .leaf _ _ a _ d => if d then 0 else a
  | .branch _ ns => MNode.appTotal_list ns
def MNode.appTotal_list : List MNode → Nat
  | [] => 0
  | n :: ns => MNode.appTotal n + MNode.appTotal_list ns
end

mutual
/-- Total used size of the live part of a working tree. -/
def MNode.useTotal : MNode → Nat
  | .leaf _ _ _ u d => if d then 0 else u
  | .branch _ ns => MNode.useTotal_list ns
def MNode.useTotal_list : List MNode → Nat
  | [] => 0
  | n :: ns => MNode.useTotal n + MNode.useTotal_list ns
end

mutual
/-- Look up the working-tree node at an index path. -/
def MNode.getNodeM : MNode → List Nat → Option MNode
  | n, [] => some n
  | .leaf _ _ _ _ _, _ :: _ => none
  | .branch _ cs, i :: q => MNode.getNodeM_list cs i q
def MNode.getNodeM_list : List MNode → Nat → List Nat → Option MNode
  | [], _, _ => none
  | c :: _, 0, q => MNode.getNodeM c q
  | _ :: cs, i + 1, q => MNode.getNodeM_list cs i q
end

mutual
/-- Apply `f` to the node at an index path (no change if the path is not
in the tree). -/
def MNode.updateAtM (f : MNode → MNode) : MNode → List Nat → MNode
  | n, [] => f n
  | .leaf p k a u d, _ :: _ => .leaf p k a u d
  | .branch p cs, i :: q => .branch p (MNode.updateAtM_list f cs i q)
def MNode.updateAtM_list (f : MNode → MNode) : List MNode → Nat → List Nat → List MNode
  | [], _, _ => []
  | c :: cs, 0, q => MNode.updateAtM f c q :: cs
  | c :: cs, i + 1, q => c :: MNode.updateAtM_list f cs i q
end

/-- Mark a leaf dead: the model of `parents[-1]._nodes.remove(node)`. -/
def MNode.killM : MNode → MNode
  | .leaf p k a u _ => .leaf p k a u true
  | .branch p ns => .branch p ns

/-- Model of `tail._add_size(...)` on the working tree. -/
def MNode.addM (da du : Nat) : MNode → MNode
  | .leaf p k a u d => .leaf p k (a + da) (u + du) d
  | .branch p ns => .branch p ns

/-- Index of the last live child: `_nodes[-1]` of the source reads the
last element of the child list after the removals so far, which is the
last element of the working list that is not marked dead. -/
def lastAliveIdx : List MNode → Option Nat
  | [] => none
  | c :: cs =>
    match lastAliveIdx cs with
    | some i => some (i + 1)
    | none => if c.isDead then none else some 0

/-- One iteration of the loop of `merge_upwards_if_smaller_than` for the
small node at position `pos`: when the node has at least two ancestors and
the grandparent's last (live) child is a mixed node, that tail absorbs the
node's current sizes and the node is removed from its parent.  The second
component models `assert len(parents[-1]._nodes)`: it is `false` exactly
when the removal emptied the parent's live child list. -/
def MNode.stepM (mt : MNode) (pos : List Nat) : MNode × Bool :=
  if pos.length < 2 then (mt, true) else
  match MNode.getNodeM mt pos with
  | some (.leaf _ _ a u false) =>
    let gpos := pos.dropLast.dropLast
    match MNode.getNodeM mt gpos with
    | some (.branch _ gcs) =>
      match lastAliveIdx gcs with
      | some j =>
        match MNode.getNodeM mt (gpos ++ [j]) with
        | some (.leaf _ none _ _ false) =>
          let mt1 := MNode.updateAtM (MNode.addM a u) mt (gpos ++ [j])
          let mt2 := MNode.updateAtM MNode.killM mt1 pos
          let ok :=
            match MNode.getNodeM mt2 pos.dropLast with
            | some (.branch _ pcs) =>
              decide (0 < (pcs.filter (fun c => !MNode.isDead c)).length)
            | _ => true
          (mt2, ok)
        | _ => (mt, true)
      | none => (mt, true)
    | _ => (mt, true)
  | _ => (mt, true)

/-- Method `merge_upwards_if_smaller_than`: find the small leaves with
their positions, then run the loop.  The boolean is the conjunction of all
`assert len(parents[-1]._nodes)` checks. -/
def DuNode.merge_upwards_if_smaller_than (t : Nat) (m : Bool) (n : DuNode) : DuNode × Bool :=
  let r := (DuNode.findSmallPos t m n).foldl
    (fun acc pos =>
      let s := MNode.stepM acc.1 pos
      (s.1, acc.2 && s.2))
    (n.toM, true)
  (r.1.extract, r.2)

/-- In-memory filesystem standing for the `listdir`/`lstat` capability
consumed by the scanner.  `reg`/`dir`/`other` carry `st_size` and
`st_blocks`; a `dir` whose `listing` is `none` makes `listdir` raise
`OSError`; a `gone` entry appears in its parent listing but makes `lstat`
raise `OSError` (the deletion race of the tests). -/
inductive FSNode : Type where
  | reg (stSize stBlocks : Nat)
  | dir (stSize stBlocks : Nat) (listing : Option (List (String × FSNode)))
  | other (stSize stBlocks : Nat)
  | gone

/-- A significance decision recorded during the scan: the threshold in
effect and the two global subtotals at that moment. -/
structure ScanEvent : Type where
  fraction : Nat
  appSub : Nat
  useSub : Nat
deriving DecidableEq

/-- The mutable scanner state: `self._app_subtotal`, `self._use_subtotal`,
the number of `warnings.warn` calls, and the recorded decisions. -/
structure ScanState : Type where
  appSubtotal : Nat
  useSubtotal : Nat
  warnings : Nat
  events : List ScanEvent
deriving DecidableEq

/-- The tuple indexing idiom `(use_value, app_value)[a_or_u]` of the
source: selects the apparent value when the flag is true. -/
def sel (m : Bool) (uVal aVal : Nat) : Nat :=
  if m then aVal else uVal

/-- Loop state of `_scan_inner` plus the surrounding `_scan` frame: the
`children` list, the two mixed accumulators, the current `fraction`, and
the global scanner state. -/
structure InnerAcc : Type where
  children : List DuNode
  appMixed : Nat
  useMixed : Nat
  fraction : Nat
  st : ScanState

/-- Result of `_scan`: the leftover sizes, the updated fraction, the kept
node if any (`keep_node`), and the global scanner state. -/
structure ScanRes : Type where
  appLeft : Nat
  useLeft : Nat
  fraction : Nat
  keep : Option DuNode
  st : ScanState

/-- Line 450–452: recompute the fraction from the updated subtotals. -/
def recalcFraction (m : Bool) (acc : InnerAcc) : InnerAcc :=
  { acc with fraction := sel m acc.st.useSubtotal acc.st.appSubtotal / 20 }

/-- Append a decision event for the current fraction and subtotals. -/
def pushEvent (acc : InnerAcc) : InnerAcc :=
  { acc with st := { acc.st with
      events := acc.st.events ++ [⟨acc.fraction, acc.st.appSubtotal, acc.st.useSubtotal⟩] } }

/-- Lines 360–376 of `_scan`: the keep decision.  When there are children
or the mixed total reaches the fraction the node is kept — with a trailing
leftovers child when there are children, else collapsed to the mixed
totals — and zero leftovers are returned; otherwise the mixed totals are
returned to the caller.  A decision event is recorded. -/
def duScanFinish (m : Bool) (pathname : String) (acc : InnerAcc) : ScanRes :=
  let acc := pushEvent acc
  if acc.children.isEmpty = false ∨ sel m acc.useMixed acc.appMixed ≥ acc.fraction then
    let node :=
      if acc.children.isEmpty = false then
        DuNode.branch pathname
          (acc.children ++ [DuNode.new_leftovers pathname acc.appMixed acc.useMixed])
      else
        DuNode.leaf pathname (some true) acc.appMixed acc.useMixed
    { appLeft := 0, useLeft := 0, fraction := acc.fraction, keep := some node, st := acc.st }
  else
    { appLeft := acc.appMixed, useLeft := acc.useMixed, fraction := acc.fraction,
      keep := none, st := acc.st }

mutual
/-- Method `_scan`: initialize the fraction from the global subtotals,
list the directory (a failure warns and leaves the mixed totals at zero),
run the entry loop, then decide whether to keep the node. -/
def duScan (m : Bool) (pathname : String)
    (listing : Option (List (String × FSNode))) (st : ScanState) : ScanRes :=
  let fraction := sel m st.useSubtotal st.appSubtotal / 20
  match listing with
  | none =>
    duScanFinish m pathname
      { children := [], appMixed := 0, useMixed := 0, fraction := fraction,
        st := { st with warnings := st.warnings + 1 } }
  | some entries =>
    duScanFinish m pathname
      (duScanInner m pathname entries
        { children := [], appMixed := 0, useMixed := 0, fraction := fraction, st := st })

/-- The loop of `_scan_inner` over the listed entries. -/
def duScanInner (m : Bool) (pathname : String) :
    List (String × FSNode) → InnerAcc → InnerAcc
  | [], acc => acc
  | e :: rest, acc => duScanInner m pathname rest (duScanEntry m pathname e acc)

/-- One iteration of the `_scan_inner` loop (lines 382–452).  A `gone`
entry warns and is skipped (`continue`, so no fraction recalculation).  A
regular file is counted as zero when it has no allocated blocks, and is
made a child node exactly when its selected size reaches the fraction.  A
directory is scanned recursively; its own `st_size`/`st_blocks` always go
to the mixed accumulator, and its leftovers do too unless it was kept.
Anything else is folded into the mixed accumulator.  After each processed
entry the fraction is recomputed from the updated subtotals. -/
def duScanEntry (m : Bool) (pathname : String) :
    String × FSNode → InnerAcc → InnerAcc
  | (nm, fsn), acc =>
    let path₁ := pathname ++ "/" ++ nm
    match fsn with
    | .gone =>
      { acc with st := { acc.st with warnings := acc.st.warnings + 1 } }
    | .reg size blocks =>
      let appS := if blocks = 0 then 0 else size
      let useS := if blocks = 0 then 0 else blocks <<< 9
      let acc := pushEvent acc
      let acc :=
        if sel m useS appS ≥ acc.fraction then
          { acc with
            children := acc.children ++ [DuNode.leaf path₁ (some false) appS useS],
            st := { acc.st with
              appSubtotal := acc.st.appSubtotal + appS,
              useSubtotal := acc.st.useSubtotal + useS } }
        else
          { acc with
            appMixed := acc.appMixed + appS,
            useMixed := acc.useMixed + useS,
            st := { acc.st with
              appSubtotal := acc.st.appSubtotal + appS,
              useSubtotal := acc.st.useSubtotal + useS } }
      recalcFraction m acc
    | .dir size blocks sub =>
      let r := duScan m path₁ sub acc.st
      let acc :=
        match r.keep with
        | some child =>
          { acc with children := acc.children ++ [child], fraction := r.fraction, st := r.st }
        | none =>
          { acc with
            appMixed := acc.appMixed + r.appLeft,
            useMixed := acc.useMixed + r.useLeft,
            fraction := r.fraction, st := r.st }
      let acc :=
        { acc with
          appMixed := acc.appMixed + size,
          useMixed := acc.useMixed + blocks <<< 9,
          st := { acc.st with
            appSubtotal := acc.st.appSubtotal + size,
            useSubtotal := acc.st.useSubtotal + blocks <<< 9 } }
      recalcFraction m acc
    | .other size blocks =>
      let acc :=
        { acc with
          appMixed := acc.appMixed + size,
          useMixed := acc.useMixed + blocks <<< 9,
          st := { acc.st with
            appSubtotal := acc.st.appSubtotal + size,
            useSubtotal := acc.st.useSubtotal + blocks <<< 9 } }
      recalcFraction m acc
end

/-- Method `_normpath`: `'/'` becomes the empty string, one trailing
slash is stripped. -/
def normpath (pathname : String) : String :=
  if pathname = "/" then ""
  else if pathname.endsWith "/" then pathname.dropRight 1
  else pathname

/-- The `path.isdir` test of `_check_path`, against the filesystem node
the (normalized) root path denotes; a path that does not exist resolves to
`gone` and is not a directory. -/
def isDirF : FSNode → Bool
  | .dir _ _ _ => true
  | _ => false

/-- The listing the scanner will read for the root node. -/
def listingOf : FSNode → Option (List (String × FSNode))
  | .dir _ _ l => l
  | _ => none

/-- Constructor `DuScan.__init__`: normalize the path, then `_check_path`
raises `OSError` unless the path denotes a directory.  On success the
scanner holds the normalized path. -/
def DuScan_init (pathname : String) (root : FSNode) : Except String String :=
  let p := normpath pathname
  if isDirF root then Except.ok p
  else Except.error ("Path " ++ pathname ++ " is not a directory")

/-- The zeroed scanner state of `scan` (line 328). -/
def initState : ScanState := ⟨0, 0, 0, []⟩

/-- Method `scan`: run `_scan` from zero subtotals, check the
`keep_node and not app_leftover_bytes` assertion (`none` models an
assertion failure), then prune and merge with the final fraction. -/
def DuScan_scan (m : Bool) (p : String) (root : FSNode) : Option (DuNode × ScanState) :=
  let r := duScan m p (listingOf root) initState
  match r.keep with
  | some tree =>
    if r.appLeft = 0 then
      some ((DuNode.merge_upwards_if_smaller_than r.fraction m
        (DuNode.prune_if_smaller_than r.fraction m tree)).1, r.st)
    else none
  | none => none

/-- The whole pipeline as the command-line tool runs it: construct the
scanner (which may fail), then scan. -/
def dutreeRun (m : Bool) (pathname : String) (root : FSNode) :
    Except String (Option (DuNode × ScanState)) :=
  match DuScan_init pathname root with
  | .error e => .error e
  | .ok p => .ok (DuScan_scan m p root)

/-- Two index paths that part ways at some common index: updating below
one cannot be seen when reading below the other. -/
def Diverge : List Nat → List Nat → Prop
  | a :: as, b :: bs => a ≠ b ∨ (a = b ∧ Diverge as bs)
  | _, _ => False

instance : IsTotal DuNode duPathLe := ⟨fun a b => le_total a.pathOf b.pathOf⟩

instance : IsTrans DuNode duPathLe := ⟨fun a b c hab hbc => le_trans hab hbc⟩

/-- Shape of a child list left behind by `_prune_some_if_small`: every
child but the last has at least the threshold under the chosen metric; a
last child under the threshold can only be a freshly shaped leftovers
node of this directory with a nonzero size pair, sitting after a non-mixed
sibling; and a node with a single child never has a mixed one. -/
def ShapeOK (t : Nat) (m : Bool) (p : String) (cs : List DuNode) : Prop :=
  (∀ c ∈ cs.dropLast, t ≤ DuNode.metricSel m c) ∧
  (∀ la, cs.getLast? = some la → DuNode.metricSel m la < t →
    ((∃ a u, la = DuNode.new_leftovers p a u ∧ ¬(a = 0 ∧ u = 0)) ∧
      (∃ pr, cs.dropLast.getLast? = some pr ∧ pr.isMixedB = false))) ∧
  (∀ c, cs = [c] → c.isMixedB = false)

/-- Trees in the image of `prune_if_smaller_than t m`: every internal node
has at least the threshold in total and a `ShapeOK` child list.  Such
trees are exactly the fixed points of the pruning pass. -/
inductive Pruned (t : Nat) (m : Bool) : DuNode → Prop where
  | leaf : ∀ p k a u, Pruned t m (.leaf p k a u)
  | branch : ∀ p cs, t ≤ DuNode.metricSel m (.branch p cs) →
      (∀ c ∈ cs, Pruned t m c) → ShapeOK t m p cs →
      Pruned t m (.branch p cs)

/-- Working-tree shadow of a tree during the merge loop: the same shape
with the same paths and kinds; only the working leaf sizes may differ
(the loop adds sizes into mixed tails) and leaves may be marked dead —
and a leaf is dead only when its original is below the threshold. -/
inductive Shadow (t : Nat) (m : Bool) : DuNode → MNode → Prop where
  | leaf : ∀ p k a u a₂ u₂ d,
      (d = true → DuNode.metricSel m (.leaf p k a u) < t) →
      Shadow t m (.leaf p k a u) (.leaf p k a₂ u₂ d)
  | branch : ∀ p cs ms, List.Forall₂ (Shadow t m) cs ms →
      Shadow t m (.branch p cs) (.branch p ms)

/-- No directory node anywhere in the tree has exactly one child that is
a mixed node (the "no lonely leftover line" property). -/
inductive NoLonely : DuNode → Prop where
  | leaf : ∀ p k a u, NoLonely (.leaf p k a u)
  | branch : ∀ p cs, (∀ c, cs = [c] → c.isMixedB = false) →
      (∀ c ∈ cs, NoLonely c) → NoLonely (.branch p cs)

/-- Every leaf below the threshold is a mixed node whose parent also has
a non-mixed child. -/
inductive SmallLeavesGood (t : Nat) (m : Bool) : DuNode → Prop where
  | leaf : ∀ p k a u, SmallLeavesGood t m (.leaf p k a u)
  | branch : ∀ p cs,
      (∀ c ∈ cs, c.isLeafB = true → DuNode.metricSel m c < t →
        c.isMixedB = true ∧ ∃ c₂ ∈ cs, c₂.isMixedB = false) →
      (∀ c ∈ cs, SmallLeavesGood t m c) →
      SmallLeavesGood t m (.branch p cs)

/-- The subtotal a recorded decision saw, under the selected metric. -/
def evSub (m : Bool) (e : ScanEvent) : Nat := sel m e.useSub e.appSub

/-- Decision events lying between two subtotal values, each carrying the
threshold `subtotal / 20`, in non-decreasing subtotal order. -/
def EventsOK (m : Bool) (lo hi : Nat) (Δ : List ScanEvent) : Prop :=
  (∀ e ∈ Δ, e.fraction = evSub m e / 20 ∧ lo ≤ evSub m e ∧ evSub m e ≤ hi) ∧
  (Δ.map (evSub m)).Sorted (· ≤ ·)

/-! ### Basic facts about sizes -/

/-- Structural induction with the hypothesis available on every child. -/
theorem DuNode.myInd {P : DuNode → Prop}
    (hleaf : ∀ p k a u, P (.leaf p k a u))
    (hbranch : ∀ p cs, (∀ c ∈ cs, P c) → P (.branch p cs)) :
    ∀ n, P n
  | .leaf p k a u => hleaf p k a u
  | .branch p cs => hbranch p cs (fun c hc => DuNode.myInd hleaf hbranch c)
termination_by n => sizeOf n
decreasing_by
  have h1 : sizeOf c < sizeOf cs := List.sizeOf_lt_of_mem hc
  simp only [DuNode.branch.sizeOf_spec]
  omega

theorem app_size_list_append (l₁ l₂ : List DuNode) :
    DuNode.app_size_list (l₁ ++ l₂) =
      DuNode.app_size_list l₁ + DuNode.app_size_list l₂ := by
  induction l₁ with
  | nil => simp [DuNode.app_size_list]
  | cons c cs ih => simp [DuNode.app_size_list, ih]; omega

theorem use_size_list_append (l₁ l₂ : List DuNode) :
    DuNode.use_size_list (l₁ ++ l₂) =
      DuNode.use_size_list l₁ + DuNode.use_size_list l₂ := by
  induction l₁ with
  | nil => simp [DuNode.use_size_list]
  | cons c cs ih => simp [DuNode.use_size_list, ih]; omega

theorem app_size_list_filter (f : DuNode → Bool) (cs : List DuNode) :
    DuNode.app_size_list (cs.filter f) +
      DuNode.app_size_list (cs.filter (fun n => !f n)) =
      DuNode.app_size_list cs := by
  induction cs with
  | nil => simp [DuNode.app_size_list]
  | cons c cs ih =>
    by_cases h : f c <;>
      simp [List.filter_cons, h, DuNode.app_size_list, ← ih] <;> omega

theorem use_size_list_filter (f : DuNode → Bool) (cs : List DuNode) :
    DuNode.use_size_list (cs.filter f) +
      DuNode.use_size_list (cs.filter (fun n => !f n)) =
      DuNode.use_size_list cs := by
  induction cs with
  | nil => simp [DuNode.use_size_list]
  | cons c cs ih =>
    by_cases h : f c <;>
      simp [List.filter_cons, h, DuNode.use_size_list, ← ih] <;> omega

theorem isMixedB_iff (n : DuNode) :
    n.isMixedB = true ↔ ∃ p a u, n = .leaf p none a u := by
  cases n with
  | leaf p k a u => cases k <;> simp [DuNode.isMixedB]
  | branch p cs => simp [DuNode.isMixedB]

theorem prune_list_eq_map (t : Nat) (m : Bool) (cs : List DuNode) :
    DuNode.prune_list t m cs = cs.map (DuNode.prune_if_smaller_than t m) := by
  induction cs with
  | nil => rfl
  | cons c cs ih => simp [DuNode.prune_list, ih]

/-! ### Pruning preserves both totals -/

theorem prune_finish_app (p : String) (keep : List DuNode) (pApp pUse : Nat) :
    (DuNode.prune_finish p keep pApp pUse).app_size =
      DuNode.app_size_list keep + pApp := by
  unfold DuNode.prune_finish
  split
  · split
    case _ hla =>
      rw [List.getLast?_eq_none_iff] at hla
      subst hla
      simp [DuNode.app_size, DuNode.app_size_list]
    case _ la hla =>
      have hne : keep ≠ [] := fun h => by subst h; simp at hla
      have hdec : keep.dropLast ++ [la] = keep := by
        have h1 := List.dropLast_append_getLast hne
        have h2 : keep.getLast hne = la := by
          rw [List.getLast?_eq_getLast keep hne] at hla
          exact Option.some_inj.mp hla
        rw [h2] at h1; exact h1
      split
      case _ hmix =>
        rcases (isMixedB_iff la).1 hmix with ⟨q, a, u, rfl⟩
        have hsum : DuNode.app_size_list keep =
            DuNode.app_size_list keep.dropLast + a := by
          conv_lhs => rw [← hdec]
          simp [app_size_list_append, DuNode.app_size_list, DuNode.app_size]
        simp [DuNode.app_size, app_size_list_append, DuNode.app_size_list,
          DuNode.add_size, hsum]
        omega
      case _ =>
        simp [DuNode.app_size, app_size_list_append, DuNode.app_size_list,
          DuNode.new_leftovers]
  case _ h =>
    push_neg at h
    simp [DuNode.app_size, h.1]

theorem prune_finish_use (p : String) (keep : List DuNode) (pApp pUse : Nat) :
    (DuNode.prune_finish p keep pApp pUse).use_size =
      DuNode.use_size_list keep + pUse := by
  unfold DuNode.prune_finish
  split
  · split
    case _ hla =>
      rw [List.getLast?_eq_none_iff] at hla
      subst hla
      simp [DuNode.use_size, DuNode.use_size_list]
    case _ la hla =>
      have hne : keep ≠ [] := fun h => by subst h; simp at hla
      have hdec : keep.dropLast ++ [la] = keep := by
        have h1 := List.dropLast_append_getLast hne
        have h2 : keep.getLast hne = la := by
          rw [List.getLast?_eq_getLast keep hne] at hla
          exact Option.some_inj.mp hla
        rw [h2] at h1; exact h1
      split
      case _ hmix =>
        rcases (isMixedB_iff la).1 hmix with ⟨q, a, u, rfl⟩
        have hsum : DuNode.use_size_list keep =
            DuNode.use_size_list keep.dropLast + u := by
          conv_lhs => rw [← hdec]
          simp [use_size_list_append, DuNode.use_size_list, DuNode.use_size]
        simp [DuNode.use_size, use_size_list_append, DuNode.use_size_list,
          DuNode.add_size, hsum]
        omega
      case _ =>
        simp [DuNode.use_size, use_size_list_append, DuNode.use_size_list,
          DuNode.new_leftovers]
  case _ h =>
    push_neg at h
    simp [DuNode.use_size, h.2]

theorem prune_some_app (t : Nat) (m : Bool) (p : String) (cs : List DuNode) :
    (DuNode.prune_some_if_small t m p cs).app_size = DuNode.app_size_list cs := by
  have hpart :
      DuNode.app_size_list (cs.filter fun n => decide (DuNode.metricSel m n < t)) +
        DuNode.app_size_list (cs.filter fun n => !decide (DuNode.metricSel m n < t)) =
        DuNode.app_size_list cs :=
    app_size_list_filter _ cs
  rcases hk : (cs.filter fun n => !decide (DuNode.metricSel m n < t)) with - | ⟨k, - | ⟨k₂, ks⟩⟩
  · rw [hk] at hpart
    simp only [DuNode.prune_some_if_small, hk, prune_finish_app]
    simp [DuNode.app_size_list] at hpart ⊢
    omega
  · rw [hk] at hpart
    by_cases hmix : k.isMixedB = true
    · rcases (isMixedB_iff k).1 hmix with ⟨q, a, u, rfl⟩
      simp only [DuNode.prune_some_if_small, hk, hmix, if_true, prune_finish_app]
      simp [DuNode.app_size_list, DuNode.app_size, DuNode.fixApp] at hpart ⊢
      omega
    · simp only [DuNode.prune_some_if_small, hk]
      rw [if_neg hmix, prune_finish_app]
      simp [DuNode.app_size_list] at hpart ⊢
      omega
  · rw [hk] at hpart
    simp only [DuNode.prune_some_if_small, hk, prune_finish_app]
    omega

theorem prune_some_use (t : Nat) (m : Bool) (p : String) (cs : List DuNode) :
    (DuNode.prune_some_if_small t m p cs).use_size = DuNode.use_size_list cs := by
  have hpart :
      DuNode.use_size_list (cs.filter fun n => decide (DuNode.metricSel m n < t)) +
        DuNode.use_size_list (cs.filter fun n => !decide (DuNode.metricSel m n < t)) =
        DuNode.use_size_list cs :=
    use_size_list_filter _ cs
  rcases hk : (cs.filter fun n => !decide (DuNode.metricSel m n < t)) with - | ⟨k, - | ⟨k₂, ks⟩⟩
  · rw [hk] at hpart
    simp only [DuNode.prune_some_if_small, hk, prune_finish_use]
    simp [DuNode.use_size_list] at hpart ⊢
    omega
  · rw [hk] at hpart
    by_cases hmix : k.isMixedB = true
    · rcases (isMixedB_iff k).1 hmix with ⟨q, a, u, rfl⟩
      simp only [DuNode.prune_some_if_small, hk, hmix, if_true, prune_finish_use]
      simp [DuNode.use_size_list, DuNode.use_size, DuNode.fixUse] at hpart ⊢
      omega
    · simp only [DuNode.prune_some_if_small, hk]
      rw [if_neg hmix, prune_finish_use]
      simp [DuNode.use_size_list] at hpart ⊢
      omega
  · rw [hk] at hpart
    simp only [DuNode.prune_some_if_small, hk, prune_finish_use]
    omega

theorem prune_app (t : Nat) (m : Bool) :
    ∀ n : DuNode, (DuNode.prune_if_smaller_than t m n).app_size = n.app_size := by
  apply DuNode.myInd
  · intro p k a u; rfl
  · intro p cs ih
    have hlist : DuNode.app_size_list (DuNode.prune_list t m cs) =
        DuNode.app_size_list cs := by
      clear * - ih
      induction cs with
      | nil => rfl
      | cons c cs ihl =>
        simp only [DuNode.prune_list, DuNode.app_size_list]
        rw [ih c (by simp), ihl (fun c hc => ih c (by simp [hc]))]
    unfold DuNode.prune_if_smaller_than
    split
    · simp [DuNode.app_size]
    · rw [prune_some_app, hlist]
      simp [DuNode.app_size]

theorem prune_use (t : Nat) (m : Bool) :
    ∀ n : DuNode, (DuNode.prune_if_smaller_than t m n).use_size = n.use_size := by
  apply DuNode.myInd
  · intro p k a u; rfl
  · intro p cs ih
    have hlist : DuNode.use_size_list (DuNode.prune_list t m cs) =
        DuNode.use_size_list cs := by
      clear * - ih
      induction cs with
      | nil => rfl
      | cons c cs ihl =>
        simp only [DuNode.prune_list, DuNode.use_size_list]
        rw [ih c (by simp), ihl (fun c hc => ih c (by simp [hc]))]
    unfold DuNode.prune_if_smaller_than
    split
    · simp [DuNode.use_size]
    · rw [prune_some_use, hlist]
      simp [DuNode.use_size]

theorem prune_metric (t : Nat) (m m₂ : Bool) (n : DuNode) :
    DuNode.metricSel m₂ (DuNode.prune_if_smaller_than t m n) = DuNode.metricSel m₂ n := by
  cases m₂ <;> simp [DuNode.metricSel, prune_app, prune_use]

/-! ### The leaves: sum of their fixed sizes and the sort -/

theorem app_size_list_eq_sum (l : List DuNode) :
    DuNode.app_size_list l = (l.map DuNode.app_size).sum := by
  induction l with
  | nil => rfl
  | cons c cs ih => simp [DuNode.app_size_list, ih]

theorem use_size_list_eq_sum (l : List DuNode) :
    DuNode.use_size_list l = (l.map DuNode.use_size).sum := by
  induction l with
  | nil => rfl
  | cons c cs ih => simp [DuNode.use_size_list, ih]

theorem get_leaves_raw_app :
    ∀ n : DuNode, DuNode.app_size_list (DuNode.get_leaves_raw n) = n.app_size := by
  apply DuNode.myInd
  · intro p k a u
    simp [DuNode.get_leaves_raw, DuNode.app_size_list, DuNode.app_size]
  · intro p cs ih
    have : ∀ l : List DuNode, (∀ c ∈ l, DuNode.app_size_list (DuNode.get_leaves_raw c) = c.app_size) →
        DuNode.app_size_list (DuNode.get_leaves_raw_list l) = DuNode.app_size_list l := by
      intro l hl
      induction l with
      | nil => rfl
      | cons c cs ihl =>
        simp only [DuNode.get_leaves_raw_list, app_size_list_append, DuNode.app_size_list]
        rw [hl c (by simp), ihl (fun c hc => hl c (by simp [hc]))]
    simp only [DuNode.get_leaves_raw, DuNode.app_size]
    exact this cs ih

theorem get_leaves_raw_use :
    ∀ n : DuNode, DuNode.use_size_list (DuNode.get_leaves_raw n) = n.use_size := by
  apply DuNode.myInd
  · intro p k a u
    simp [DuNode.get_leaves_raw, DuNode.use_size_list, DuNode.use_size]
  · intro p cs ih
    have : ∀ l : List DuNode, (∀ c ∈ l, DuNode.use_size_list (DuNode.get_leaves_raw c) = c.use_size) →
        DuNode.use_size_list (DuNode.get_leaves_raw_list l) = DuNode.use_size_list l := by
      intro l hl
      induction l with
      | nil => rfl
      | cons c cs ihl =>
        simp only [DuNode.get_leaves_raw_list, use_size_list_append, DuNode.use_size_list]
        rw [hl c (by simp), ihl (fun c hc => hl c (by simp [hc]))]
    simp only [DuNode.get_leaves_raw, DuNode.use_size]
    exact this cs ih

theorem get_leaves_raw_isLeaf :
    ∀ n : DuNode, ∀ l ∈ DuNode.get_leaves_raw n, l.isLeafB = true := by
  apply DuNode.myInd
  · intro p k a u l hl
    simp [DuNode.get_leaves_raw] at hl
    subst hl; rfl
  · intro p cs ih l hl
    simp only [DuNode.get_leaves_raw] at hl
    induction cs with
    | nil => simp [DuNode.get_leaves_raw_list] at hl
    | cons c cs ihl =>
      simp only [DuNode.get_leaves_raw_list, List.mem_append] at hl
      rcases hl with h | h
      · exact ih c (by simp) l h
      · exact ihl (fun c hc => ih c (by simp [hc])) h

theorem get_leaves_perm (n : DuNode) :
    (DuNode.get_leaves n).Perm (DuNode.get_leaves_raw n) :=
  List.perm_insertionSort duPathLe n.get_leaves_raw

theorem app_size_list_of_perm {l₁ l₂ : List DuNode} (h : l₁.Perm l₂) :
    DuNode.app_size_list l₁ = DuNode.app_size_list l₂ := by
  rw [app_size_list_eq_sum, app_size_list_eq_sum]
  exact (h.map DuNode.app_size).sum_eq

theorem use_size_list_of_perm {l₁ l₂ : List DuNode} (h : l₁.Perm l₂) :
    DuNode.use_size_list l₁ = DuNode.use_size_list l₂ := by
  rw [use_size_list_eq_sum, use_size_list_eq_sum]
  exact (h.map DuNode.use_size).sum_eq

theorem fixApp_of_leaf {l : DuNode} (h : l.isLeafB = true) : l.fixApp = l.app_size := by
  cases l with
  | leaf p k a u => rfl
  | branch p cs => simp [DuNode.isLeafB] at h

theorem fixUse_of_leaf {l : DuNode} (h : l.isLeafB = true) : l.fixUse = l.use_size := by
  cases l with
  | leaf p k a u => rfl
  | branch p cs => simp [DuNode.isLeafB] at h

theorem sum_fixApp_of_leaves {l : List DuNode} (h : ∀ x ∈ l, x.isLeafB = true) :
    (l.map DuNode.fixApp).sum = DuNode.app_size_list l := by
  rw [app_size_list_eq_sum]
  congr 1
  exact List.map_congr_left (fun x hx => fixApp_of_leaf (h x hx))

theorem sum_fixUse_of_leaves {l : List DuNode} (h : ∀ x ∈ l, x.isLeafB = true) :
    (l.map DuNode.fixUse).sum = DuNode.use_size_list l := by
  rw [use_size_list_eq_sum]
  congr 1
  exact List.map_congr_left (fun x hx => fixUse_of_leaf (h x hx))

/-- The root's apparent total is the sum of the fixed apparent sizes over
the leaves returned by `get_leaves`. -/
theorem get_leaves_sum_app (n : DuNode) :
    ((DuNode.get_leaves n).map DuNode.fixApp).sum = n.app_size := by
  have hleaf : ∀ x ∈ DuNode.get_leaves n, x.isLeafB = true := fun x hx =>
    get_leaves_raw_isLeaf n x ((get_leaves_perm n).mem_iff.mp hx)
  rw [sum_fixApp_of_leaves hleaf, app_size_list_of_perm (get_leaves_perm n),
    get_leaves_raw_app]

/-- The root's used total is the sum of the fixed used sizes over the
leaves returned by `get_leaves`. -/
theorem get_leaves_sum_use (n : DuNode) :
    ((DuNode.get_leaves n).map DuNode.fixUse).sum = n.use_size := by
  have hleaf : ∀ x ∈ DuNode.get_leaves n, x.isLeafB = true := fun x hx =>
    get_leaves_raw_isLeaf n x ((get_leaves_perm n).mem_iff.mp hx)
  rw [sum_fixUse_of_leaves hleaf, use_size_list_of_perm (get_leaves_perm n),
    get_leaves_raw_use]

/-- The leaves list is sorted by path. -/
theorem get_leaves_sorted (n : DuNode) :
    List.Sorted duPathLe (DuNode.get_leaves n) :=
  List.sorted_insertionSort duPathLe n.get_leaves_raw

/-! ### The merge pass preserves both totals -/

/-- Structural induction for the working tree. -/
theorem MNode.mIndOn {P : MNode → Prop}
    (hleaf : ∀ p k a u d, P (.leaf p k a u d))
    (hbranch : ∀ p cs, (∀ c ∈ cs, P c) → P (.branch p cs)) :
    ∀ n, P n
  | .leaf p k a u d => hleaf p k a u d
  | .branch p cs => hbranch p cs (fun c hc => MNode.mIndOn hleaf hbranch c)
termination_by n => sizeOf n
decreasing_by
  have h1 : sizeOf c < sizeOf cs := List.sizeOf_lt_of_mem hc
  simp only [MNode.branch.sizeOf_spec]
  omega

theorem toM_appTotal :
    ∀ n : DuNode, MNode.appTotal (DuNode.toM n) = n.app_size := by
  apply DuNode.myInd
  · intro p k a u; rfl
  · intro p cs ih
    have : ∀ l : List DuNode, (∀ c ∈ l, MNode.appTotal (DuNode.toM c) = c.app_size) →
        MNode.appTotal_list (DuNode.toM_list l) = DuNode.app_size_list l := by
      intro l hl
      induction l with
      | nil => rfl
      | cons c cs ihl =>
        simp only [DuNode.toM_list, MNode.appTotal_list, DuNode.app_size_list]
        rw [hl c (by simp), ihl (fun c hc => hl c (by simp [hc]))]
    simp only [DuNode.toM, MNode.appTotal, DuNode.app_size]
    exact this cs ih

theorem toM_useTotal :
    ∀ n : DuNode, MNode.useTotal (DuNode.toM n) = n.use_size := by
  apply DuNode.myInd
  · intro p k a u; rfl
  · intro p cs ih
    have : ∀ l : List DuNode, (∀ c ∈ l, MNode.useTotal (DuNode.toM c) = c.use_size) →
        MNode.useTotal_list (DuNode.toM_list l) = DuNode.use_size_list l := by
      intro l hl
      induction l with
      | nil => rfl
      | cons c cs ihl =>
        simp only [DuNode.toM_list, MNode.useTotal_list, DuNode.use_size_list]
        rw [hl c (by simp), ihl (fun c hc => hl c (by simp [hc]))]
    simp only [DuNode.toM, MNode.useTotal, DuNode.use_size]
    exact this cs ih

theorem toM_not_dead (n : DuNode) : MNode.isDead (DuNode.toM n) = false := by
  cases n <;> rfl

theorem extract_app :
    ∀ mt : MNode, MNode.isDead mt = false → (MNode.extract mt).app_size = MNode.appTotal mt := by
  apply MNode.mIndOn
  · intro p k a u d hd
    simp [MNode.isDead] at hd
    simp [MNode.extract, DuNode.app_size, MNode.appTotal, hd]
  · intro p cs ih _
    have : ∀ l : List MNode,
        (∀ c ∈ l, MNode.isDead c = false → (MNode.extract c).app_size = MNode.appTotal c) →
        DuNode.app_size_list (MNode.extract_list l) = MNode.appTotal_list l := by
      intro l hl
      induction l with
      | nil => rfl
      | cons c cs ihl =>
        by_cases hd : MNode.isDead c = true
        · have hz : MNode.appTotal c = 0 := by
            cases c with
            | leaf p k a u d => simp [MNode.isDead] at hd; simp [MNode.appTotal, hd]
            | branch p ns => simp [MNode.isDead] at hd
          simp only [MNode.extract_list, hd, if_true, MNode.appTotal_list, hz,
            ihl (fun c hc => hl c (by simp [hc]))]
          omega
        · simp only [Bool.not_eq_true] at hd
          simp only [MNode.extract_list, hd, Bool.false_eq_true, if_false,
            DuNode.app_size_list, MNode.appTotal_list,
            hl c (by simp) hd, ihl (fun c hc => hl c (by simp [hc]))]
    simp only [MNode.extract, DuNode.app_size, MNode.appTotal]
    exact this cs ih

theorem extract_use :
    ∀ mt : MNode, MNode.isDead mt = false → (MNode.extract mt).use_size = MNode.useTotal mt := by
  apply MNode.mIndOn
  · intro p k a u d hd
    simp [MNode.isDead] at hd
    simp [MNode.extract, DuNode.use_size, MNode.useTotal, hd]
  · intro p cs ih _
    have : ∀ l : List MNode,
        (∀ c ∈ l, MNode.isDead c = false → (MNode.extract c).use_size = MNode.useTotal c) →
        DuNode.use_size_list (MNode.extract_list l) = MNode.useTotal_list l := by
      intro l hl
      induction l with
      | nil => rfl
      | cons c cs ihl =>
        by_cases hd : MNode.isDead c = true
        · have hz : MNode.useTotal c = 0 := by
            cases c with
            | leaf p k a u d => simp [MNode.isDead] at hd; simp [MNode.useTotal, hd]
            | branch p ns => simp [MNode.isDead] at hd
          simp only [MNode.extract_list, hd, if_true, MNode.useTotal_list, hz,
            ihl (fun c hc => hl c (by simp [hc]))]
          omega
        · simp only [Bool.not_eq_true] at hd
          simp only [MNode.extract_list, hd, Bool.false_eq_true, if_false,
            DuNode.use_size_list, MNode.useTotal_list,
            hl c (by simp) hd, ihl (fun c hc => hl c (by simp [hc]))]
    simp only [MNode.extract, DuNode.use_size, MNode.useTotal]
    exact this cs ih

/-! Bridges between the positional helpers and list indexing. -/

theorem getNodeM_list_eq (cs : List MNode) (i : Nat) (q : List Nat) :
    MNode.getNodeM_list cs i q = (cs.get? i).bind (fun c => MNode.getNodeM c q) := by
  induction cs generalizing i with
  | nil => cases i <;> rfl
  | cons c cs ih => cases i with
    | zero => rfl
    | succ i => simpa [MNode.getNodeM_list] using ih i

theorem updateAtM_list_get? (f : MNode → MNode) (cs : List MNode) (i : Nat)
    (q : List Nat) (j : Nat) :
    (MNode.updateAtM_list f cs i q).get? j =
      if i = j then (cs.get? j).map (fun c => MNode.updateAtM f c q)
      else cs.get? j := by
  induction cs generalizing i j with
  | nil => cases i <;> cases j <;> simp [MNode.updateAtM_list]
  | cons c cs ih =>
    cases i with
    | zero => cases j <;> simp [MNode.updateAtM_list]
    | succ i =>
      cases j with
      | zero => simp [MNode.updateAtM_list]
      | succ j => simpa [MNode.updateAtM_list] using ih i j

theorem updateAtM_list_length (f : MNode → MNode) (cs : List MNode) (i : Nat)
    (q : List Nat) : (MNode.updateAtM_list f cs i q).length = cs.length := by
  induction cs generalizing i with
  | nil => cases i <;> rfl
  | cons c cs ih => cases i <;> simp [MNode.updateAtM_list, ih]

theorem getNodeM_append (q₁ q₂ : List Nat) :
    ∀ mt : MNode, MNode.getNodeM mt (q₁ ++ q₂) =
      (MNode.getNodeM mt q₁).bind (fun x => MNode.getNodeM x q₂) := by
  induction q₁ with
  | nil => intro mt; simp [MNode.getNodeM]
  | cons i q ih =>
    intro mt
    cases mt with
    | leaf p k a u d => simp [MNode.getNodeM]
    | branch p cs =>
      simp only [List.cons_append, MNode.getNodeM, getNodeM_list_eq]
      cases cs.get? i with
      | none => rfl
      | some c => simp [ih]

theorem appTotal_updateAt (f : MNode → MNode) :
    ∀ (q : List Nat) (mt x : MNode), MNode.getNodeM mt q = some x →
      MNode.appTotal (MNode.updateAtM f mt q) + MNode.appTotal x =
        MNode.appTotal mt + MNode.appTotal (f x) := by
  intro q
  induction q with
  | nil =>
    intro mt x h
    simp [MNode.getNodeM] at h
    subst h
    simp [MNode.updateAtM]
    omega
  | cons i q ih =>
    have hlist : ∀ (cs : List MNode) (i : Nat) (x : MNode),
        (cs.get? i).bind (fun c => MNode.getNodeM c q) = some x →
        MNode.appTotal_list (MNode.updateAtM_list f cs i q) + MNode.appTotal x =
          MNode.appTotal_list cs + MNode.appTotal (f x) := by
      intro cs
      induction cs with
      | nil => intro i x h; simp at h
      | cons c cs ihl =>
        intro i x h
        cases i with
        | zero =>
          simp only [List.get?_cons_zero, Option.some_bind] at h
          simp only [MNode.updateAtM_list, MNode.appTotal_list]
          have := ih c x h
          omega
        | succ i =>
          simp only [List.get?_cons_succ] at h
          simp only [MNode.updateAtM_list, MNode.appTotal_list]
          have := ihl i x h
          omega
    intro mt x h
    cases mt with
    | leaf p k a u d => simp [MNode.getNodeM] at h
    | branch p cs =>
      simp only [MNode.getNodeM, getNodeM_list_eq] at h
      simp only [MNode.updateAtM, MNode.appTotal]
      exact hlist cs i x h

theorem useTotal_updateAt (f : MNode → MNode) :
    ∀ (q : List Nat) (mt x : MNode), MNode.getNodeM mt q = some x →
      MNode.useTotal (MNode.updateAtM f mt q) + MNode.useTotal x =
        MNode.useTotal mt + MNode.useTotal (f x) := by
  intro q
  induction q with
  | nil =>
    intro mt x h
    simp [MNode.getNodeM] at h
    subst h
    simp [MNode.updateAtM]
    omega
  | cons i q ih =>
    have hlist : ∀ (cs : List MNode) (i : Nat) (x : MNode),
        (cs.get? i).bind (fun c => MNode.getNodeM c q) = some x →
        MNode.useTotal_list (MNode.updateAtM_list f cs i q) + MNode.useTotal x =
          MNode.useTotal_list cs + MNode.useTotal (f x) := by
      intro cs
      induction cs with
      | nil => intro i x h; simp at h
      | cons c cs ihl =>
        intro i x h
        cases i with
        | zero =>
          simp only [List.get?_cons_zero, Option.some_bind] at h
          simp only [MNode.updateAtM_list, MNode.useTotal_list]
          have := ih c x h
          omega
        | succ i =>
          simp only [List.get?_cons_succ] at h
          simp only [MNode.updateAtM_list, MNode.useTotal_list]
          have := ihl i x h
          omega
    intro mt x h
    cases mt with
    | leaf p k a u d => simp [MNode.getNodeM] at h
    | branch p cs =>
      simp only [MNode.getNodeM, getNodeM_list_eq] at h
      simp only [MNode.updateAtM, MNode.useTotal]
      exact hlist cs i x h

theorem getNode_updateAt_diverge (f : MNode → MNode) :
    ∀ (q p : List Nat) (mt : MNode), Diverge q p →
      MNode.getNodeM (MNode.updateAtM f mt q) p = MNode.getNodeM mt p := by
  intro q
  induction q with
  | nil => intro p mt h; simp [Diverge] at h
  | cons i q ih =>
    intro p mt h
    cases p with
    | nil => simp [Diverge] at h
    | cons j p =>
      cases mt with
      | leaf pa k a u d => simp [MNode.updateAtM]
      | branch pa cs =>
        simp only [MNode.updateAtM, MNode.getNodeM, getNodeM_list_eq,
          updateAtM_list_get?]
        rcases h with hne | ⟨rfl, hdiv⟩
        · rw [if_neg hne]
        · rw [if_pos rfl]
          cases hc : cs.get? i with
          | none => simp [hc]
          | some c => simp [hc, ih p c hdiv]

theorem isDead_updateAt (f : MNode → MNode) (mt : MNode) (i : Nat) (q : List Nat) :
    MNode.isDead (MNode.updateAtM f mt (i :: q)) = MNode.isDead mt := by
  cases mt <;> rfl

/-- Divergence of two paths sharing a prefix but with different next
indices. -/
theorem diverge_append (g : List Nat) (i j : Nat) (r₁ r₂ : List Nat) (h : i ≠ j) :
    Diverge (g ++ i :: r₁) (g ++ j :: r₂) := by
  induction g with
  | nil => exact Or.inl h
  | cons a g ih => exact Or.inr ⟨rfl, ih⟩

theorem stepM_appTotal (mt : MNode) (pos : List Nat) :
    MNode.appTotal (MNode.stepM mt pos).1 = MNode.appTotal mt ∧
      MNode.useTotal (MNode.stepM mt pos).1 = MNode.useTotal mt ∧
      MNode.isDead (MNode.stepM mt pos).1 = MNode.isDead mt := by
  unfold MNode.stepM
  dsimp only
  split
  · exact ⟨rfl, rfl, rfl⟩
  case _ hlen =>
  split
  case _ pa k a u h1 =>
    split
    case _ gp gcs h2 =>
      split
      case _ j h3 =>
        split
        case _ tp ta tu h4 =>
          -- decompose pos = gpos ++ [i, l₂]
          have hpos2 : 2 ≤ pos.length := by omega
          have hne : pos ≠ [] := by
            intro h; subst h; simp at hpos2
          have hdne : pos.dropLast ≠ [] := by
            intro h
            have := List.length_dropLast pos
            rw [h] at this
            simp at this
            omega
          have hsplit1 : pos.dropLast ++ [pos.getLast hne] = pos :=
            List.dropLast_append_getLast hne
          have hsplit2 : pos.dropLast.dropLast ++ [pos.dropLast.getLast hdne] = pos.dropLast :=
            List.dropLast_append_getLast hdne
          set gpos := pos.dropLast.dropLast with hgpos
          set i := pos.dropLast.getLast hdne with hi
          set l₂ := pos.getLast hne with hl₂
          have hposeq : gpos ++ i :: [l₂] = pos := by
            rw [← hsplit1, ← hsplit2]
            simp
          -- the tail index differs from the parent index
          have hij : i ≠ j := by
            intro he
            subst he
            rw [← hposeq] at h1
            rw [show gpos ++ i :: [l₂] = (gpos ++ [i]) ++ [l₂] by simp] at h1
            rw [getNodeM_append] at h1
            rw [h4] at h1
            simp [MNode.getNodeM] at h1
          have hdiv : Diverge (gpos ++ [j]) pos := by
            rw [← hposeq]
            exact diverge_append gpos j i [] [l₂] (Ne.symm hij)
          -- totals through the tail update
          have htail1 := appTotal_updateAt (MNode.addM a u) (gpos ++ [j]) mt _ h4
          have htail2 := useTotal_updateAt (MNode.addM a u) (gpos ++ [j]) mt _ h4
          simp [MNode.appTotal, MNode.useTotal, MNode.addM] at htail1 htail2
          -- the small node is unchanged by the tail update
          have hkeep : MNode.getNodeM
              (MNode.updateAtM (MNode.addM a u) mt (gpos ++ [j])) pos =
              some (MNode.leaf pa k a u false) := by
            rw [getNode_updateAt_diverge _ _ _ _ hdiv]
            exact h1
          have hkill1 := appTotal_updateAt MNode.killM pos
            (MNode.updateAtM (MNode.addM a u) mt (gpos ++ [j])) _ hkeep
          have hkill2 := useTotal_updateAt MNode.killM pos
            (MNode.updateAtM (MNode.addM a u) mt (gpos ++ [j])) _ hkeep
          simp [MNode.appTotal, MNode.useTotal, MNode.killM] at hkill1 hkill2
          have hd1 : MNode.isDead (MNode.updateAtM MNode.killM
              (MNode.updateAtM (MNode.addM a u) mt (gpos ++ [j])) pos) = MNode.isDead mt := by
            rcases List.exists_cons_of_ne_nil hne with ⟨x, xs, hx⟩
            have hgj : ∃ y ys, gpos ++ [j] = y :: ys := by
              cases hg : gpos with
              | nil => exact ⟨j, [], by simp⟩
              | cons y ys => exact ⟨y, ys ++ [j], by simp⟩
            rcases hgj with ⟨y, ys, hy⟩
            rw [hx, isDead_updateAt, hy, isDead_updateAt]
          refine ⟨?_, ?_, hd1⟩
          · simp only
            omega
          · simp only
            omega
        all_goals exact ⟨rfl, rfl, rfl⟩
      case _ => exact ⟨rfl, rfl, rfl⟩
    all_goals exact ⟨rfl, rfl, rfl⟩
  all_goals exact ⟨rfl, rfl, rfl⟩

theorem merge_totals (t : Nat) (m : Bool) (n : DuNode) :
    (DuNode.merge_upwards_if_smaller_than t m n).1.app_size = n.app_size ∧
      (DuNode.merge_upwards_if_smaller_than t m n).1.use_size = n.use_size := by
  have key : ∀ (ps : List (List Nat)) (acc : MNode × Bool),
      MNode.appTotal (ps.foldl
        (fun acc pos => ((MNode.stepM acc.1 pos).1, acc.2 && (MNode.stepM acc.1 pos).2)) acc).1 =
        MNode.appTotal acc.1 ∧
      MNode.useTotal (ps.foldl
        (fun acc pos => ((MNode.stepM acc.1 pos).1, acc.2 && (MNode.stepM acc.1 pos).2)) acc).1 =
        MNode.useTotal acc.1 ∧
      MNode.isDead (ps.foldl
        (fun acc pos => ((MNode.stepM acc.1 pos).1, acc.2 && (MNode.stepM acc.1 pos).2)) acc).1 =
        MNode.isDead acc.1 := by
    intro ps
    induction ps with
    | nil => intro acc; exact ⟨rfl, rfl, rfl⟩
    | cons p ps ih =>
      intro acc
      simp only [List.foldl_cons]
      rcases stepM_appTotal acc.1 p with ⟨h1, h2, h3⟩
      rcases ih ((MNode.stepM acc.1 p).1, acc.2 && (MNode.stepM acc.1 p).2) with ⟨k1, k2, k3⟩
      exact ⟨k1.trans h1, k2.trans h2, k3.trans h3⟩
  unfold DuNode.merge_upwards_if_smaller_than
  dsimp only
  rcases key (DuNode.findSmallPos t m n) (n.toM, true) with ⟨ka, ku, kd⟩
  constructor
  · rw [extract_app _ (by rw [kd]; exact toM_not_dead n), ka]
    exact toM_appTotal n
  · rw [extract_use _ (by rw [kd]; exact toM_not_dead n), ku]
    exact toM_useTotal n

/-! ### Claim C1 -/

/-- C1: for every tree (in particular every tree built by the scanner) and
every threshold `t` and metric `m`, running `prune_if_smaller_than t m`
and then `merge_upwards_if_smaller_than t m` leaves the root's total
apparent size and total used size unchanged, and before and after each
pass the root totals equal the sum of the corresponding fixed sizes over
all leaves of the tree. -/
theorem C1_size_conservation (n : DuNode) (t : Nat) (m : Bool) :
    ((DuNode.prune_if_smaller_than t m n).app_size = n.app_size ∧
      (DuNode.prune_if_smaller_than t m n).use_size = n.use_size ∧
      (DuNode.merge_upwards_if_smaller_than t m
          (DuNode.prune_if_smaller_than t m n)).1.app_size = n.app_size ∧
      (DuNode.merge_upwards_if_smaller_than t m
          (DuNode.prune_if_smaller_than t m n)).1.use_size = n.use_size) ∧
    (((DuNode.get_leaves n).map DuNode.fixApp).sum = n.app_size ∧
      ((DuNode.get_leaves n).map DuNode.fixUse).sum = n.use_size) ∧
    (((DuNode.get_leaves (DuNode.prune_if_smaller_than t m n)).map DuNode.fixApp).sum =
        (DuNode.prune_if_smaller_than t m n).app_size ∧
      ((DuNode.get_leaves (DuNode.prune_if_smaller_than t m n)).map DuNode.fixUse).sum =
        (DuNode.prune_if_smaller_than t m n).use_size) ∧
    (((DuNode.get_leaves ((DuNode.merge_upwards_if_smaller_than t m
          (DuNode.prune_if_smaller_than t m n)).1)).map DuNode.fixApp).sum =
        (DuNode.merge_upwards_if_smaller_than t m
          (DuNode.prune_if_smaller_than t m n)).1.app_size ∧
      ((DuNode.get_leaves ((DuNode.merge_upwards_if_smaller_than t m
          (DuNode.prune_if_smaller_than t m n)).1)).map DuNode.fixUse).sum =
        (DuNode.merge_upwards_if_smaller_than t m
          (DuNode.prune_if_smaller_than t m n)).1.use_size) := by
  rcases merge_totals t m (DuNode.prune_if_smaller_than t m n) with ⟨hma, hmu⟩
  refine ⟨⟨prune_app t m n, prune_use t m n, ?_, ?_⟩,
    ⟨get_leaves_sum_app _, get_leaves_sum_use _⟩,
    ⟨get_leaves_sum_app _, get_leaves_sum_use _⟩,
    ⟨get_leaves_sum_app _, get_leaves_sum_use _⟩⟩
  · rw [hma]; exact prune_app t m n
  · rw [hmu]; exact prune_use t m n

/-! ### The pruning invariant: shape of pruned trees -/

theorem getLast?_decomp {α : Type _} {l : List α} {la : α} (h : l.getLast? = some la) :
    l.dropLast ++ [la] = l := by
  have hne : l ≠ [] := by intro hh; subst hh; simp at h
  have h1 := List.dropLast_append_getLast hne
  have h2 : l.getLast hne = la := by
    rw [List.getLast?_eq_getLast l hne] at h
    exact Option.some_inj.mp h
  rw [h2] at h1
  exact h1

theorem metric_leaf (m : Bool) (p : String) (k : Option Bool) (a u : Nat) :
    DuNode.metricSel m (.leaf p k a u) = if m then a else u := by
  cases m <;> simp [DuNode.metricSel, DuNode.app_size, DuNode.use_size]

theorem metric_add_size_ge (m : Bool) (q : String) (k : Option Bool)
    (a u pApp pUse : Nat) :
    DuNode.metricSel m (.leaf q k a u) ≤
      DuNode.metricSel m ((DuNode.leaf q k a u).add_size pApp pUse) := by
  cases m <;> simp [DuNode.metricSel, DuNode.add_size, DuNode.app_size, DuNode.use_size]

theorem pruned_prune_finish (t : Nat) (m : Bool) (p : String) (keep : List DuNode)
    (pApp pUse : Nat)
    (hkeep : ∀ k ∈ keep, t ≤ DuNode.metricSel m k ∧ Pruned t m k)
    (hsing : ∀ k, keep = [k] → k.isMixedB = false)
    (htot : t ≤ DuNode.metricSel m (DuNode.prune_finish p keep pApp pUse)) :
    Pruned t m (DuNode.prune_finish p keep pApp pUse) := by
  unfold DuNode.prune_finish at htot ⊢
  by_cases hnz : pApp ≠ 0 ∨ pUse ≠ 0
  · rw [if_pos hnz] at htot ⊢
    rcases hlast : keep.getLast? with - | la
    · simp only [hlast]
      exact Pruned.leaf _ _ _ _
    · simp only [hlast] at htot ⊢
      have hdec := getLast?_decomp hlast
      have hlamem : la ∈ keep := by rw [← hdec]; simp
      by_cases hmix : la.isMixedB = true
      · rw [if_pos hmix] at htot ⊢
        rcases (isMixedB_iff la).1 hmix with ⟨q, a₀, u₀, rfl⟩
        refine Pruned.branch p _ htot ?_ ⟨?_, ?_, ?_⟩
        · intro c hc
          rcases List.mem_append.mp hc with hc | hc
          · exact (hkeep c (List.dropLast_subset keep hc)).2
          · simp only [List.mem_singleton] at hc
            subst hc
            exact Pruned.leaf _ _ _ _
        · intro c hc
          rw [List.dropLast_concat] at hc
          exact (hkeep c (List.dropLast_subset keep hc)).1
        · intro lb hlb hsmall
          rw [List.getLast?_concat] at hlb
          exfalso
          have hge := metric_add_size_ge m q none a₀ u₀ pApp pUse
          have hla := (hkeep _ hlamem).1
          rw [← Option.some_inj.mp hlb] at hsmall
          omega
        · intro c hc
          have hlen := congrArg List.length hc
          simp at hlen
          have hdl : keep.dropLast = [] := by
            have h2 := List.length_dropLast keep
            apply List.eq_nil_of_length_eq_zero
            omega
          rw [hdl] at hdec
          simp at hdec
          have := hsing _ hdec.symm
          rw [this] at hmix
          simp at hmix
      · rw [if_neg hmix] at htot ⊢
        refine Pruned.branch p _ htot ?_ ⟨?_, ?_, ?_⟩
        · intro c hc
          rcases List.mem_append.mp hc with hc | hc
          · exact (hkeep c hc).2
          · simp only [List.mem_singleton] at hc
            subst hc
            exact Pruned.leaf _ _ _ _
        · intro c hc
          rw [List.dropLast_concat] at hc
          exact (hkeep c hc).1
        · intro lb hlb hsmall
          rw [List.getLast?_concat] at hlb
          refine ⟨⟨pApp, pUse, (Option.some_inj.mp hlb).symm, by omega⟩, ⟨la, ?_, ?_⟩⟩
          · rw [List.dropLast_concat]
            exact hlast
          · simpa using hmix
        · intro c hc
          have hlen := congrArg List.length hc
          simp at hlen
          rw [hlen] at hlast
          simp at hlast
  · rw [if_neg hnz] at htot ⊢
    refine Pruned.branch p keep htot (fun c hc => (hkeep c hc).2) ⟨?_, ?_, ?_⟩
    · intro c hc
      exact (hkeep c (List.dropLast_subset keep hc)).1
    · intro la hla hsmall
      exfalso
      have hdec := getLast?_decomp hla
      have hlamem : la ∈ keep := by rw [← hdec]; simp
      have := (hkeep la hlamem).1
      omega
    · exact hsing

theorem prune_list_app (t : Nat) (m : Bool) (cs : List DuNode) :
    DuNode.app_size_list (DuNode.prune_list t m cs) = DuNode.app_size_list cs := by
  induction cs with
  | nil => rfl
  | cons c cs ih => simp [DuNode.prune_list, DuNode.app_size_list, prune_app, ih]

theorem prune_list_use (t : Nat) (m : Bool) (cs : List DuNode) :
    DuNode.use_size_list (DuNode.prune_list t m cs) = DuNode.use_size_list cs := by
  induction cs with
  | nil => rfl
  | cons c cs ih => simp [DuNode.prune_list, DuNode.use_size_list, prune_use, ih]

theorem pruned_prune_some (t : Nat) (m : Bool) (p : String) (cs : List DuNode)
    (hall : ∀ c ∈ cs, Pruned t m c)
    (htot : t ≤ DuNode.metricSel m (DuNode.branch p cs)) :
    Pruned t m (DuNode.prune_some_if_small t m p cs) := by
  have htot' : t ≤ DuNode.metricSel m (DuNode.prune_some_if_small t m p cs) := by
    cases m
    · simpa [DuNode.metricSel, DuNode.use_size, prune_some_use] using htot
    · simpa [DuNode.metricSel, DuNode.app_size, prune_some_app] using htot
  have hkeepmem : ∀ k ∈ cs.filter (fun n => !decide (DuNode.metricSel m n < t)),
      t ≤ DuNode.metricSel m k ∧ Pruned t m k := by
    intro k hk
    rcases List.mem_filter.mp hk with ⟨hmem, hcond⟩
    simp [not_lt] at hcond
    exact ⟨hcond, hall k hmem⟩
  rcases hk : cs.filter (fun n => !decide (DuNode.metricSel m n < t)) with - | ⟨k, - | ⟨k₂, ks⟩⟩
  · simp only [DuNode.prune_some_if_small, hk] at htot' ⊢
    exact pruned_prune_finish t m p [] _ _ (by simp) (by simp) htot'
  · by_cases hmix : k.isMixedB = true
    · simp only [DuNode.prune_some_if_small, hk, hmix, if_true] at htot' ⊢
      exact pruned_prune_finish t m p [] _ _ (by simp) (by simp) htot'
    · simp only [DuNode.prune_some_if_small, hk] at htot' ⊢
      rw [if_neg hmix] at htot' ⊢
      refine pruned_prune_finish t m p [k] _ _ ?_ ?_ htot'
      · intro x hx
        simp only [List.mem_singleton] at hx
        subst hx
        exact hkeepmem x (by rw [hk]; simp)
      · intro x hx
        have hxk : k = x := by simpa using hx
        subst hxk
        simpa using hmix
  · simp only [DuNode.prune_some_if_small, hk] at htot' ⊢
    refine pruned_prune_finish t m p (k :: k₂ :: ks) _ _ ?_ ?_ htot'
    · intro x hx
      exact hkeepmem x (by rw [hk]; exact hx)
    · intro x hx
      simp at hx

theorem prune_pruned (t : Nat) (m : Bool) :
    ∀ n, Pruned t m (DuNode.prune_if_smaller_than t m n) := by
  apply DuNode.myInd
  · intro p k a u
    exact Pruned.leaf _ _ _ _
  · intro p cs ih
    unfold DuNode.prune_if_smaller_than
    split
    · exact Pruned.leaf _ _ _ _
    case _ hge =>
      apply pruned_prune_some
      · intro c hc
        rw [prune_list_eq_map] at hc
        rcases List.mem_map.mp hc with ⟨c₀, hc₀, rfl⟩
        exact ih c₀ hc₀
      · rw [not_lt] at hge
        cases m
        · simpa [DuNode.metricSel, DuNode.use_size, prune_list_use] using hge
        · simpa [DuNode.metricSel, DuNode.app_size, prune_list_app] using hge

theorem prune_some_eq_finish (t : Nat) (m : Bool) (p : String) (cs : List DuNode)
    (X : List DuNode)
    (hX : cs.filter (fun n => !decide (DuNode.metricSel m n < t)) = X)
    (hsing : ∀ x, X = [x] → x.isMixedB = false) :
    DuNode.prune_some_if_small t m p cs =
      DuNode.prune_finish p X
        (DuNode.app_size_list (cs.filter (fun n => decide (DuNode.metricSel m n < t))))
        (DuNode.use_size_list (cs.filter (fun n => decide (DuNode.metricSel m n < t)))) := by
  rcases X with - | ⟨x, - | ⟨x₂, xs⟩⟩
  · simp only [DuNode.prune_some_if_small, hX]
  · simp only [DuNode.prune_some_if_small, hX]
    rw [if_neg (by simp [hsing x rfl])]
  · simp only [DuNode.prune_some_if_small, hX]

theorem prune_finish_append_eq (p : String) (K : List DuNode) (la : DuNode)
    (a u : Nat) (hla : K.getLast? = some la) (hmix : la.isMixedB = false)
    (hnz : ¬(a = 0 ∧ u = 0)) :
    DuNode.prune_finish p K a u = DuNode.branch p (K ++ [DuNode.new_leftovers p a u]) := by
  unfold DuNode.prune_finish
  rw [if_pos (by omega)]
  simp only [hla]
  rw [if_neg (by simp [hmix])]

theorem prune_finish_zero (p : String) (K : List DuNode) :
    DuNode.prune_finish p K 0 0 = DuNode.branch p K := by
  unfold DuNode.prune_finish
  rw [if_neg (by omega)]

theorem prune_some_of_shape (t : Nat) (m : Bool) (p : String) (cs : List DuNode)
    (hshape : ShapeOK t m p cs) :
    DuNode.prune_some_if_small t m p cs = DuNode.branch p cs := by
  obtain ⟨ha, hb, hc⟩ := hshape
  rcases hlast : cs.getLast? with - | la
  · rw [List.getLast?_eq_none_iff] at hlast
    subst hlast
    rfl
  · have hdec := getLast?_decomp hlast
    by_cases hsmall : DuNode.metricSel m la < t
    · obtain ⟨⟨a, u, hcanon, hnz⟩, ⟨pr, hpr, hprmix⟩⟩ := hb la hlast hsmall
      have hkeep : cs.filter (fun n => !decide (DuNode.metricSel m n < t)) = cs.dropLast := by
        conv_lhs => rw [← hdec]
        rw [List.filter_append]
        have h1 : cs.dropLast.filter (fun n => !decide (DuNode.metricSel m n < t)) =
            cs.dropLast :=
          List.filter_eq_self.mpr (fun x hx => by
            simp only [Bool.not_eq_true', decide_eq_false_iff_not]
            exact not_lt.2 (ha x hx))
        have h2 : [la].filter (fun n => !decide (DuNode.metricSel m n < t)) = [] := by
          simp [hsmall]
        rw [h1, h2, List.append_nil]
      have hpruned : cs.filter (fun n => decide (DuNode.metricSel m n < t)) = [la] := by
        conv_lhs => rw [← hdec]
        rw [List.filter_append]
        have h1 : cs.dropLast.filter (fun n => decide (DuNode.metricSel m n < t)) = [] := by
          rw [List.filter_eq_nil_iff]
          intro x hx
          simp only [decide_eq_true_eq]
          exact not_lt.2 (ha x hx)
        have h2 : [la].filter (fun n => decide (DuNode.metricSel m n < t)) = [la] := by
          simp [hsmall]
        rw [h1, h2, List.nil_append]
      have hsingdl : ∀ x, cs.dropLast = [x] → x.isMixedB = false := by
        intro x hx
        have : cs.dropLast.getLast? = some x := by rw [hx]; rfl
        rw [hpr] at this
        rw [← Option.some_inj.mp this]
        exact hprmix
      rw [prune_some_eq_finish t m p cs cs.dropLast hkeep hsingdl, hpruned]
      have hsz : DuNode.app_size_list [la] = a ∧ DuNode.use_size_list [la] = u := by
        rw [hcanon]
        simp [DuNode.app_size_list, DuNode.use_size_list, DuNode.new_leftovers,
          DuNode.app_size, DuNode.use_size]
      rw [hsz.1, hsz.2, prune_finish_append_eq p cs.dropLast pr a u hpr hprmix hnz,
        ← hcanon, hdec]
    · have hall : ∀ x ∈ cs, ¬ (DuNode.metricSel m x < t) := by
        intro x hx
        rw [← hdec] at hx
        rcases List.mem_append.mp hx with hx | hx
        · exact not_lt.2 (ha x hx)
        · simp only [List.mem_singleton] at hx
          subst hx
          exact hsmall
      have hkeep : cs.filter (fun n => !decide (DuNode.metricSel m n < t)) = cs :=
        List.filter_eq_self.mpr (fun x hx => by
          simp only [Bool.not_eq_true', decide_eq_false_iff_not]
          exact hall x hx)
      have hpruned : cs.filter (fun n => decide (DuNode.metricSel m n < t)) = [] := by
        rw [List.filter_eq_nil_iff]
        intro x hx
        simp only [decide_eq_true_eq]
        exact hall x hx
      rw [prune_some_eq_finish t m p cs cs hkeep hc, hpruned]
      exact prune_finish_zero p cs

theorem pruned_fix (t : Nat) (m : Bool) :
    ∀ n, Pruned t m n → DuNode.prune_if_smaller_than t m n = n := by
  apply DuNode.myInd
  · intro p k a u _
    rfl
  · intro p cs ih hp
    cases hp with
    | branch _ _ htot hall hshape =>
      unfold DuNode.prune_if_smaller_than
      rw [if_neg (not_lt.2 htot)]
      have hfix : DuNode.prune_list t m cs = cs := by
        clear htot hshape
        induction cs with
        | nil => rfl
        | cons c cs ihl =>
          simp only [DuNode.prune_list]
          rw [ih c (by simp) (hall c (by simp)),
            ihl (fun c hc => ih c (by simp [hc])) (fun c hc => hall c (by simp [hc]))]
      rw [hfix]
      exact prune_some_of_shape t m p cs hshape

/-! ### Claim C4 -/

/-- C4: for every tree, every threshold `t` and every metric `m`, running
`prune_if_smaller_than t m` twice in succession yields the same tree (the
same structure, paths, kinds and sizes) as running it once. -/
theorem C4_prune_idempotent (n : DuNode) (t : Nat) (m : Bool) :
    DuNode.prune_if_smaller_than t m (DuNode.prune_if_smaller_than t m n) =
      DuNode.prune_if_smaller_than t m n :=
  pruned_fix t m _ (prune_pruned t m n)

/-! ### Claim C3: the threshold boundary -/

theorem prune_branch_eq (t : Nat) (m : Bool) (p : String) (cs : List DuNode)
    (h : ¬ DuNode.metricSel m (DuNode.branch p cs) < t) :
    DuNode.prune_if_smaller_than t m (DuNode.branch p cs) =
      DuNode.prune_some_if_small t m p (DuNode.prune_list t m cs) := by
  unfold DuNode.prune_if_smaller_than
  rw [if_neg h]

theorem prune_finish_not_mixed (p : String) (keep : List DuNode) (a u : Nat) :
    (DuNode.prune_finish p keep a u).isMixedB = false := by
  unfold DuNode.prune_finish
  split
  · split
    · rfl
    · split <;> rfl
  · rfl

theorem prune_some_not_mixed (t : Nat) (m : Bool) (p : String) (cs : List DuNode) :
    (DuNode.prune_some_if_small t m p cs).isMixedB = false := by
  unfold DuNode.prune_some_if_small
  dsimp only
  split
  · split <;> exact prune_finish_not_mixed _ _ _ _
  · exact prune_finish_not_mixed _ _ _ _

theorem prune_isMixed (t : Nat) (m : Bool) (n : DuNode) :
    (DuNode.prune_if_smaller_than t m n).isMixedB = n.isMixedB := by
  cases n with
  | leaf p k a u => rfl
  | branch p cs =>
    unfold DuNode.prune_if_smaller_than
    split
    · rfl
    · rw [prune_some_not_mixed]
      rfl

theorem mem_children_prune_finish (p : String) (keep : List DuNode) (a u : Nat)
    (k : DuNode) (hk : k ∈ keep) (hkmix : k.isMixedB = false) :
    k ∈ (DuNode.prune_finish p keep a u).getChildren := by
  unfold DuNode.prune_finish
  split
  · rcases hlast : keep.getLast? with - | la
    · rw [List.getLast?_eq_none_iff] at hlast
      subst hlast
      simp at hk
    · simp only [hlast]
      have hdec := getLast?_decomp hlast
      split
      case _ hmix =>
        have hkla : k ≠ la := by
          intro h
          rw [h, hmix] at hkmix
          simp at hkmix
        have : k ∈ keep.dropLast := by
          rw [← hdec] at hk
          rcases List.mem_append.mp hk with h | h
          · exact h
          · simp only [List.mem_singleton] at h
            exact absurd h hkla
        simp [DuNode.getChildren, this]
      case _ =>
        simp [DuNode.getChildren, hk]
  · simpa [DuNode.getChildren] using hk

theorem mem_children_prune_some (t : Nat) (m : Bool) (p : String) (cs : List DuNode)
    (k : DuNode) (hk : k ∈ cs.filter (fun n => !decide (DuNode.metricSel m n < t)))
    (hkmix : k.isMixedB = false) :
    k ∈ (DuNode.prune_some_if_small t m p cs).getChildren := by
  rcases hX : cs.filter (fun n => !decide (DuNode.metricSel m n < t)) with - | ⟨x, - | ⟨x₂, xs⟩⟩
  · rw [hX] at hk
    simp at hk
  · rw [hX] at hk
    simp only [List.mem_singleton] at hk
    subst hk
    rw [prune_some_eq_finish t m p cs [k] hX
      (fun y hy => by rw [← Option.some_inj.mp (by simpa using hy : some k = some y)]; exact hkmix)]
    exact mem_children_prune_finish p [k] _ _ k (by simp) hkmix
  · rw [hX] at hk
    simp only [DuNode.prune_some_if_small, hX]
    exact mem_children_prune_finish p (x :: x₂ :: xs) _ _ k hk hkmix

theorem pruned_children_ge (t : Nat) (m : Bool) (n : DuNode) (hp : Pruned t m n) :
    ∀ c ∈ n.getChildren, c.isMixedB = false → t ≤ DuNode.metricSel m c := by
  cases hp with
  | leaf p k a u =>
    intro c hc
    simp [DuNode.getChildren] at hc
  | branch p cs htot hall hshape =>
    intro c hc hcmix
    obtain ⟨ha, hb, _⟩ := hshape
    simp only [DuNode.getChildren] at hc
    rcases hlast : cs.getLast? with - | la
    · rw [List.getLast?_eq_none_iff] at hlast
      subst hlast
      simp at hc
    · have hdec := getLast?_decomp hlast
      rw [← hdec] at hc
      rcases List.mem_append.mp hc with h | h
      · exact ha c h
      · simp only [List.mem_singleton] at h
        subst h
        by_contra hlt
        rw [not_le] at hlt
        obtain ⟨⟨a, u, hcanon, _⟩, _⟩ := hb c hlast hlt
        rw [hcanon] at hcmix
        simp [DuNode.new_leftovers, DuNode.isMixedB] at hcmix

/-- C3 counterexample: the claim says a node whose total under the metric
is exactly the threshold is kept and in particular never collapsed.  In
the tree below the directory `/d/s` has apparent total exactly `10`; with
threshold `10` the pruning pass still collapses it into a leaf, because
none of its children individually reaches the threshold
(`_prune_some_if_small` keeps no child and moves the data to the node,
discarding the child list). -/
theorem C3_counterexample :
    DuNode.metricSel true
        (DuNode.branch "/d/s"
          [DuNode.leaf "/d/s/a" (some false) 5 5,
            DuNode.leaf "/d/s/b" (some false) 5 5]) = 10 ∧
      (DuNode.branch "/d/s"
          [DuNode.leaf "/d/s/a" (some false) 5 5,
            DuNode.leaf "/d/s/b" (some false) 5 5]).isLeafB = false ∧
      DuNode.prune_if_smaller_than 10 true
          (DuNode.branch "/d"
            [DuNode.branch "/d/s"
              [DuNode.leaf "/d/s/a" (some false) 5 5,
                DuNode.leaf "/d/s/b" (some false) 5 5],
              DuNode.leaf "/d/big" (some false) 90 90]) =
        DuNode.branch "/d"
          [DuNode.leaf "/d/s" (some true) 10 10,
            DuNode.leaf "/d/big" (some false) 90 90] ∧
      (DuNode.leaf "/d/s" (some true) 10 10).isLeafB = true :=
  ⟨rfl, rfl, rfl, rfl⟩

/-- C3 (amended): in `prune_if_smaller_than t m`, a non-mixed child whose
total under metric `m` is exactly `t` stays in its parent's kept child
list (never folded into the leftover bucket) — though when it is an
internal node none of whose children survives it is kept in collapsed
form carrying its full totals — while no non-mixed child strictly below
`t` survives as a child anywhere in the pruned tree: the comparison is
the strict `node_size < small_size`. -/
theorem C3_boundary :
    (∀ (t : Nat) (m : Bool) (p : String) (cs : List DuNode) (c : DuNode),
      t ≤ DuNode.metricSel m (DuNode.branch p cs) → c ∈ cs →
      c.isMixedB = false → DuNode.metricSel m c = t →
      DuNode.prune_if_smaller_than t m c ∈
        (DuNode.prune_if_smaller_than t m (DuNode.branch p cs)).getChildren) ∧
    (∀ (t : Nat) (m : Bool) (n c : DuNode),
      c ∈ (DuNode.prune_if_smaller_than t m n).getChildren →
      c.isMixedB = false → t ≤ DuNode.metricSel m c) := by
  constructor
  · intro t m p cs c htot hmem hcmix hceq
    rw [prune_branch_eq t m p cs (not_lt.2 htot)]
    apply mem_children_prune_some
    · rw [List.mem_filter]
      refine ⟨?_, ?_⟩
      · rw [prune_list_eq_map]
        exact List.mem_map.mpr ⟨c, hmem, rfl⟩
      · simp only [Bool.not_eq_true', decide_eq_false_iff_not]
        rw [prune_metric, hceq]
        omega
    · rw [prune_isMixed]
      exact hcmix
  · intro t m n c hc hcmix
    exact pruned_children_ge t m _ (prune_pruned t m n) c hc hcmix

/-- Witness for `C3_boundary` at a concrete tree: with threshold `5` the
file of size exactly `5` survives as its own child, and conversely it
meets the threshold as the second part demands. -/
theorem C3_boundary_witness :
    DuNode.prune_if_smaller_than 5 true (DuNode.leaf "/d/a" (some false) 5 5) ∈
      (DuNode.prune_if_smaller_than 5 true
        (DuNode.branch "/d"
          [DuNode.leaf "/d/a" (some false) 5 5,
            DuNode.leaf "/d/b" (some false) 95 95])).getChildren ∧
      (5 : Nat) ≤ DuNode.metricSel true (DuNode.leaf "/d/a" (some false) 5 5) := by
  constructor
  · exact C3_boundary.1 5 true "/d" _ (DuNode.leaf "/d/a" (some false) 5 5)
      (by decide) (List.mem_cons_self _ _) rfl rfl
  · exact C3_boundary.2 5 true
      (DuNode.branch "/d"
        [DuNode.leaf "/d/a" (some false) 5 5,
          DuNode.leaf "/d/b" (some false) 95 95])
      (DuNode.leaf "/d/a" (some false) 5 5)
      (by exact List.mem_cons_self _ _) rfl

/-! ### Claim C6: order of the leaves -/

theorem charlist_lt_of_prefixed (pre : List Char) (l₁ l₂ : List Char)
    (h : List.Lex (· < ·) l₁ l₂) : List.Lex (· < ·) (pre ++ l₁) (pre ++ l₂) := by
  induction pre with
  | nil => exact h
  | cons c cs ih => exact List.Lex.cons ih

/-- Any path of the directory `d` (an entry or anything below a
subdirectory) whose name starts with a character before `U+00FF` compares
strictly below the path of the leftovers node of `d`. -/
theorem entry_lt_leftovers (d s : String) (a u : Nat) (hs : s.toList ≠ [])
    (hch : ∀ ch, s.toList.head? = some ch → ch < '\u00ff') :
    (d ++ "/" ++ s) < (DuNode.new_leftovers d a u).pathOf := by
  have hpath : (DuNode.new_leftovers d a u).pathOf = d ++ "/ÿ*" := rfl
  have hslash : ("/" : String).data = ['/'] := by decide
  have hlo : ("/ÿ*" : String).data = ['/', 'ÿ', '*'] := by decide
  rw [hpath, String.lt_iff_toList_lt]
  have h1 : (d ++ "/" ++ s).toList = d.toList ++ ('/' :: s.toList) := by
    show (d ++ "/" ++ s).data = d.data ++ ('/' :: s.data)
    rw [String.data_append, String.data_append, List.append_assoc, hslash]
    rfl
  have h2 : (d ++ "/ÿ*").toList = d.toList ++ ('/' :: 'ÿ' :: '*' :: []) := by
    show (d ++ "/ÿ*").data = d.data ++ ('/' :: 'ÿ' :: '*' :: [])
    rw [String.data_append, hlo]
  rw [h1, h2]
  show List.Lex (· < ·) _ _
  apply charlist_lt_of_prefixed
  apply List.Lex.cons
  rcases hl : s.toList with - | ⟨ch, rest⟩
  · exact absurd hl hs
  · exact List.Lex.rel (hch ch (by rw [hl]; rfl))

/-- C6 counterexample: the mixed leftovers leaf of a directory does not
always sort after the directory's other entries.  With an entry whose
name starts at code point `U+0100`, the leftovers path (which uses
`U+00FF`) sorts strictly before it, so `get_leaves` puts the mixed node
first. -/
theorem C6_counterexample :
    (DuNode.get_leaves
        (DuNode.branch "/d"
          [DuNode.leaf "/d/Ā" (some false) 1 1, DuNode.new_leftovers "/d" 2 2]) =
      [DuNode.new_leftovers "/d" 2 2, DuNode.leaf "/d/Ā" (some false) 1 1] ∧
      (DuNode.new_leftovers "/d" 2 2).isMixedB = true ∧
      (DuNode.leaf "/d/Ā" (some false) 1 1).isMixedB = false) ∧
    DuNode.get_leaves
        (DuNode.branch "/d"
          [DuNode.leaf "/d/ÿ" (some false) 1 1, DuNode.new_leftovers "/d" 2 2]) =
      [DuNode.leaf "/d/ÿ" (some false) 1 1, DuNode.new_leftovers "/d" 2 2] := by
  refine ⟨⟨?_, rfl, rfl⟩, ?_⟩
  · have hnle : ¬ duPathLe (DuNode.leaf "/d/Ā" (some false) 1 1)
        (DuNode.leaf ("/d" ++ "/ÿ*") none 2 2) := by
      unfold duPathLe
      intro h
      rw [String.le_iff_toList_le] at h
      revert h
      decide
    simp only [DuNode.get_leaves, DuNode.get_leaves_raw, DuNode.get_leaves_raw_list,
      DuNode.new_leftovers, List.append_nil, List.insertionSort, List.orderedInsert,
      if_neg hnle]
  · have hle : duPathLe (DuNode.leaf "/d/ÿ" (some false) 1 1)
        (DuNode.leaf ("/d" ++ "/ÿ*") none 2 2) := by
      unfold duPathLe
      rw [String.le_iff_toList_le]
      decide
    simp only [DuNode.get_leaves, DuNode.get_leaves_raw, DuNode.get_leaves_raw_list,
      DuNode.new_leftovers, List.append_nil, List.insertionSort, List.orderedInsert,
      if_pos hle]

/-- C6 (amended): `get_leaves` returns exactly the collapsed (fixed-size)
leaves of the tree, sorted by path, and the leftovers (`Mixed`) leaf of a
directory sorts after every other path of that directory — including
paths inside its subdirectories — whose entry name starts with a
character below `U+00FF` (the code point the leftover path uses).  For
names starting at `U+00FF` or above the mixed node's position is not
fixed: the counterexample shows a name it sorts before and one it sorts
after. -/
theorem C6_leaves_sorted :
    (∀ n : DuNode,
      (DuNode.get_leaves n).Perm (DuNode.get_leaves_raw n) ∧
      (DuNode.get_leaves n).Forall (fun x => x.isLeafB = true) ∧
      List.Sorted duPathLe (DuNode.get_leaves n)) ∧
    (∀ (d s : String) (a u : Nat), s.toList ≠ [] →
      (∀ ch, s.toList.head? = some ch → ch < '\u00ff') →
      (d ++ "/" ++ s) < (DuNode.new_leftovers d a u).pathOf) := by
  constructor
  · intro n
    refine ⟨get_leaves_perm n, ?_, get_leaves_sorted n⟩
    rw [List.forall_iff_forall_mem]
    intro x hx
    exact get_leaves_raw_isLeaf n x ((get_leaves_perm n).mem_iff.mp hx)
  · exact entry_lt_leftovers

/-- Witness for `C6_leaves_sorted`: a one-character name below `U+00FF`
sorts before the leftovers path of its directory. -/
theorem C6_leaves_sorted_witness :
    ("/d" ++ "/" ++ "x") < (DuNode.new_leftovers "/d" 1 1).pathOf ∧
      List.Sorted duPathLe
        (DuNode.get_leaves (DuNode.branch "/d" [DuNode.leaf "/d/a" (some false) 1 1])) :=
  ⟨C6_leaves_sorted.2 "/d" "x" 1 1 (by decide) (by decide),
    (C6_leaves_sorted.1 _).2.2⟩

/-! ### Claims C5 and C10: shape facts about the merge pass -/

theorem getNodeD_list_eq (cs : List DuNode) (i : Nat) (q : List Nat) :
    DuNode.getNodeD_list cs i q = (cs.get? i).bind (fun c => DuNode.getNodeD c q) := by
  induction cs generalizing i with
  | nil => cases i <;> rfl
  | cons c cs ih => cases i with
    | zero => rfl
    | succ i => simpa [DuNode.getNodeD_list] using ih i

theorem getNodeD_append (q₁ q₂ : List Nat) :
    ∀ n : DuNode, DuNode.getNodeD n (q₁ ++ q₂) =
      (DuNode.getNodeD n q₁).bind (fun x => DuNode.getNodeD x q₂) := by
  induction q₁ with
  | nil => intro n; simp [DuNode.getNodeD]
  | cons i q ih =>
    intro n
    cases n with
    | leaf p k a u => simp [DuNode.getNodeD]
    | branch p cs =>
      simp only [List.cons_append, DuNode.getNodeD, getNodeD_list_eq]
      cases cs.get? i with
      | none => rfl
      | some c => simp [ih]

theorem findSmallPosList_cons_shape (t : Nat) (m : Bool) :
    ∀ (cs : List DuNode) (q : List Nat), q ∈ DuNode.findSmallPosList t m cs →
      ∃ i q₂, q = i :: q₂ := by
  intro cs
  induction cs with
  | nil => intro q hq; simp [DuNode.findSmallPosList] at hq
  | cons c cs ih =>
    intro q hq
    simp only [DuNode.findSmallPosList, List.mem_append, List.mem_map] at hq
    rcases hq with ⟨q₀, _, rfl⟩ | ⟨q₀, hq₀, rfl⟩
    · exact ⟨0, q₀, rfl⟩
    · rcases ih q₀ hq₀ with ⟨i, q₂, rfl⟩
      exact ⟨i + 1, q₂, rfl⟩

theorem findSmall_spec (t : Nat) (m : Bool) :
    ∀ (n : DuNode) (q : List Nat), q ∈ DuNode.findSmallPos t m n →
      ∃ p k a u, DuNode.getNodeD n q = some (DuNode.leaf p k a u) ∧
        DuNode.metricSel m (DuNode.leaf p k a u) < t := by
  apply DuNode.myInd
  · intro p k a u q hq
    simp only [DuNode.findSmallPos] at hq
    by_cases hsm : (if m then a else u) < t
    · rw [if_pos hsm] at hq
      simp only [List.mem_singleton] at hq
      subst hq
      refine ⟨p, k, a, u, rfl, ?_⟩
      cases m <;> simpa [DuNode.metricSel, DuNode.app_size, DuNode.use_size] using hsm
    · rw [if_neg hsm] at hq
      simp at hq
  · intro p cs ih q hq
    simp only [DuNode.findSmallPos] at hq
    have hlist : ∀ (l : List DuNode),
        (∀ c ∈ l, ∀ q₂ ∈ DuNode.findSmallPos t m c, ∃ p₂ k a u,
          DuNode.getNodeD c q₂ = some (DuNode.leaf p₂ k a u) ∧
            DuNode.metricSel m (DuNode.leaf p₂ k a u) < t) →
        ∀ q₂ ∈ DuNode.findSmallPosList t m l, ∃ i q₃, q₂ = i :: q₃ ∧
          ∃ p₂ k a u, DuNode.getNodeD_list l i q₃ = some (DuNode.leaf p₂ k a u) ∧
            DuNode.metricSel m (DuNode.leaf p₂ k a u) < t := by
      intro l
      induction l with
      | nil => intro _ q₂ hq₂; simp [DuNode.findSmallPosList] at hq₂
      | cons c l ihl =>
        intro hl q₂ hq₂
        simp only [DuNode.findSmallPosList, List.mem_append, List.mem_map] at hq₂
        rcases hq₂ with ⟨q₀, hq₀, rfl⟩ | ⟨q₀, hq₀, rfl⟩
        · rcases hl c (by simp) q₀ hq₀ with ⟨p₂, k, a, u, hget, hsm⟩
          exact ⟨0, q₀, rfl, p₂, k, a, u, hget, hsm⟩
        · rcases ihl (fun c hc => hl c (by simp [hc])) q₀ hq₀ with
            ⟨i, q₃, rfl, p₂, k, a, u, hget, hsm⟩
          exact ⟨i + 1, q₃, rfl, p₂, k, a, u, by simpa [DuNode.getNodeD_list] using hget, hsm⟩
    rcases hlist cs (fun c hc => ih c hc) q hq with ⟨i, q₃, rfl, p₂, k, a, u, hget, hsm⟩
    exact ⟨p₂, k, a, u, by simpa [DuNode.getNodeD] using hget, hsm⟩

theorem shadow_toM (t : Nat) (m : Bool) :
    ∀ n : DuNode, Shadow t m n (DuNode.toM n) := by
  apply DuNode.myInd
  · intro p k a u
    exact Shadow.leaf p k a u a u false (by simp)
  · intro p cs ih
    simp only [DuNode.toM]
    refine Shadow.branch p cs (DuNode.toM_list cs) ?_
    induction cs with
    | nil => exact List.Forall₂.nil
    | cons c cs ihl =>
      exact List.Forall₂.cons (ih c (by simp)) (ihl (fun c hc => ih c (by simp [hc])))

theorem shadow_dead_small {t : Nat} {m : Bool} {c : DuNode} {mc : MNode}
    (h : Shadow t m c mc) (hd : MNode.isDead mc = true) :
    c.isLeafB = true ∧ DuNode.metricSel m c < t := by
  cases h with
  | leaf p k a u a₂ u₂ d hsm =>
    simp only [MNode.isDead] at hd
    exact ⟨rfl, hsm hd⟩
  | branch p cs ms hf => simp [MNode.isDead] at hd

theorem shadow_extract_isMixed {t : Nat} {m : Bool} {c : DuNode} {mc : MNode}
    (h : Shadow t m c mc) : (MNode.extract mc).isMixedB = c.isMixedB := by
  cases h with
  | leaf p k a u a₂ u₂ d hsm => cases k <;> rfl
  | branch p cs ms hf => rfl

theorem forall₂_mem_right {t : Nat} {m : Bool} :
    ∀ {cs : List DuNode} {ms : List MNode}, List.Forall₂ (Shadow t m) cs ms →
      ∀ mc ∈ ms, ∃ c ∈ cs, Shadow t m c mc := by
  intro cs ms h
  induction h with
  | nil => intro mc hmc; simp at hmc
  | cons hR hF ih =>
    intro mc hmc
    rcases List.mem_cons.mp hmc with rfl | hmc
    · exact ⟨_, by simp, hR⟩
    · rcases ih mc hmc with ⟨c, hc, hS⟩
      exact ⟨c, by simp [hc], hS⟩

theorem mem_extract_list :
    ∀ (ms : List MNode) (y : DuNode), y ∈ MNode.extract_list ms →
      ∃ mc ∈ ms, y = MNode.extract mc := by
  intro ms
  induction ms with
  | nil => intro y hy; simp [MNode.extract_list] at hy
  | cons mc ms ih =>
    intro y hy
    simp only [MNode.extract_list] at hy
    split at hy
    · rcases ih y hy with ⟨mc₂, hmc₂, rfl⟩
      exact ⟨mc₂, by simp [hmc₂], rfl⟩
    · rcases List.mem_cons.mp hy with rfl | hy
      · exact ⟨mc, by simp, rfl⟩
      · rcases ih y hy with ⟨mc₂, hmc₂, rfl⟩
        exact ⟨mc₂, by simp [hmc₂], rfl⟩

theorem forall₂_get? {t : Nat} {m : Bool} :
    ∀ {cs : List DuNode} {ms : List MNode}, List.Forall₂ (Shadow t m) cs ms →
      ∀ (i : Nat) (c : DuNode), cs.get? i = some c →
        ∃ mc, ms.get? i = some mc ∧ Shadow t m c mc := by
  intro cs ms h
  induction h with
  | nil => intro i c hc; simp at hc
  | cons hR hF ih =>
    intro i c hc
    cases i with
    | zero =>
      simp only [List.get?_cons_zero, Option.some_inj] at hc
      subst hc
      exact ⟨_, rfl, hR⟩
    | succ i =>
      simp only [List.get?_cons_succ] at hc ⊢
      exact ih i c hc

theorem shadow_getNode {t : Nat} {m : Bool} :
    ∀ (q : List Nat) (o : DuNode) (mt : MNode), Shadow t m o mt →
      ∀ x, DuNode.getNodeD o q = some x →
        ∃ y, MNode.getNodeM mt q = some y ∧ Shadow t m x y := by
  intro q
  induction q with
  | nil =>
    intro o mt hsh x hx
    simp only [DuNode.getNodeD, Option.some_inj] at hx
    subst hx
    exact ⟨mt, by cases mt <;> rfl, hsh⟩
  | cons i q ih =>
    intro o mt hsh x hx
    cases hsh with
    | leaf p k a u a₂ u₂ d hsm => simp [DuNode.getNodeD] at hx
    | branch p cs ms hf =>
      simp only [DuNode.getNodeD, getNodeD_list_eq] at hx
      rcases ho : cs.get? i with - | c
      · rw [ho] at hx; simp at hx
      · rw [ho] at hx
        simp only [Option.some_bind] at hx
        rcases forall₂_get? hf i c ho with ⟨mc, hmc, hS⟩
        rcases ih c mc hS x hx with ⟨y, hy, hSy⟩
        refine ⟨y, ?_, hSy⟩
        simp only [MNode.getNodeM, getNodeM_list_eq, hmc, Option.some_bind]
        exact hy

theorem shadow_update_addM (t : Nat) (m : Bool) (a u : Nat) :
    ∀ (q : List Nat) (o : DuNode) (mt : MNode), Shadow t m o mt →
      Shadow t m o (MNode.updateAtM (MNode.addM a u) mt q) := by
  intro q
  induction q with
  | nil =>
    intro o mt hsh
    cases hsh with
    | leaf p k a₀ u₀ a₂ u₂ d hsm =>
      exact Shadow.leaf p k a₀ u₀ (a₂ + a) (u₂ + u) d hsm
    | branch p cs ms hf => exact Shadow.branch p cs ms hf
  | cons i q ih =>
    intro o mt hsh
    cases hsh with
    | leaf p k a₀ u₀ a₂ u₂ d hsm => exact Shadow.leaf p k a₀ u₀ a₂ u₂ d hsm
    | branch p cs ms hf =>
      refine Shadow.branch p cs _ ?_
      clear * - hf ih
      induction hf generalizing i with
      | nil => cases i <;> exact List.Forall₂.nil
      | cons hR hF ihl =>
        cases i with
        | zero => exact List.Forall₂.cons (ih _ _ hR) hF
        | succ i => exact List.Forall₂.cons hR (ihl i)

theorem shadow_update_kill (t : Nat) (m : Bool) :
    ∀ (q : List Nat) (o : DuNode) (mt : MNode), Shadow t m o mt →
      (∃ p k a u, DuNode.getNodeD o q = some (DuNode.leaf p k a u) ∧
        DuNode.metricSel m (DuNode.leaf p k a u) < t) →
      Shadow t m o (MNode.updateAtM MNode.killM mt q) := by
  intro q
  induction q with
  | nil =>
    intro o mt hsh hx
    rcases hx with ⟨p, k, a, u, hget, hsm⟩
    simp only [DuNode.getNodeD, Option.some_inj] at hget
    subst hget
    cases hsh with
    | leaf _ _ _ _ a₂ u₂ d _ =>
      exact Shadow.leaf p k a u a₂ u₂ true (fun _ => hsm)
  | cons i q ih =>
    intro o mt hsh hx
    rcases hx with ⟨p, k, a, u, hget, hsm⟩
    cases hsh with
    | leaf p₀ k₀ a₀ u₀ a₂ u₂ d hsm₀ => simp [DuNode.getNodeD] at hget
    | branch p₀ cs ms hf =>
      simp only [DuNode.getNodeD, getNodeD_list_eq] at hget
      refine Shadow.branch p₀ cs _ ?_
      clear * - hf ih hget hsm
      induction hf generalizing i with
      | nil => cases i <;> exact List.Forall₂.nil
      | cons hR hF ihl =>
        cases i with
        | zero =>
          simp only [List.get?_cons_zero, Option.some_bind] at hget
          exact List.Forall₂.cons (ih _ _ hR ⟨p, k, a, u, hget, hsm⟩) hF
        | succ i =>
          simp only [List.get?_cons_succ] at hget
          exact List.Forall₂.cons hR (ihl i hget)

theorem shadow_step (t : Nat) (m : Bool) (o : DuNode) (mt : MNode) (pos : List Nat)
    (hsh : Shadow t m o mt) (hpos : pos ∈ DuNode.findSmallPos t m o) :
    Shadow t m o (MNode.stepM mt pos).1 := by
  unfold MNode.stepM
  dsimp only
  split
  · exact hsh
  split
  case _ => split
            case _ => split
                      case _ => split
                                case _ =>
                                  apply shadow_update_kill t m pos o _
                                    (shadow_update_addM t m _ _ _ o mt hsh)
                                  exact findSmall_spec t m o pos hpos
                                all_goals exact hsh
                      case _ => exact hsh
            all_goals exact hsh
  all_goals exact hsh

theorem extract_list_eq_filter (ms : List MNode) :
    MNode.extract_list ms = (ms.filter (fun c => !MNode.isDead c)).map MNode.extract := by
  induction ms with
  | nil => rfl
  | cons mc ms ih =>
    by_cases hd : MNode.isDead mc = true
    · simp [MNode.extract_list, hd, List.filter_cons, ih]
    · simp only [Bool.not_eq_true] at hd
      simp [MNode.extract_list, hd, List.filter_cons, ih]

theorem alive_filter (t : Nat) (m : Bool) :
    ∀ (cs : List DuNode) (ms : List MNode), List.Forall₂ (Shadow t m) cs ms →
      (∀ c ∈ cs.dropLast, ¬ DuNode.metricSel m c < t) →
      ms.filter (fun c => !MNode.isDead c) = ms ∨
      (∃ ms₀ mlast, ms = ms₀ ++ [mlast] ∧ MNode.isDead mlast = true ∧
        ms.filter (fun c => !MNode.isDead c) = ms₀ ∧
        (∀ x ∈ ms₀, MNode.isDead x = false)) := by
  intro cs
  induction cs with
  | nil =>
    intro ms hf _
    cases hf
    left
    rfl
  | cons c cs ih =>
    intro ms hf hdl
    rcases ms with - | ⟨mc, ms⟩
    · cases hf
    · rw [List.forall₂_cons] at hf
      rcases hf with ⟨hR, hF⟩
      rcases cs with - | ⟨c₂, cs₂⟩
      · cases hF
        by_cases hd : MNode.isDead mc = true
        · right
          exact ⟨[], mc, rfl, hd, by simp [List.filter_cons, hd], by simp⟩
        · left
          simp only [Bool.not_eq_true] at hd
          simp [List.filter_cons, hd]
      · have hcd : ¬ DuNode.metricSel m c < t := by
          apply hdl
          simp [List.dropLast_cons₂]
        have hmcalive : MNode.isDead mc = false := by
          by_contra hd
          simp only [Bool.not_eq_false] at hd
          exact hcd (shadow_dead_small hR hd).2
        have hdl₂ : ∀ x ∈ (c₂ :: cs₂).dropLast, ¬ DuNode.metricSel m x < t := by
          intro x hx
          apply hdl
          simp only [List.dropLast_cons₂, List.mem_cons]
          exact Or.inr hx
        rcases ih ms hF hdl₂ with hfil | ⟨ms₀, mlast, hms, hdead, hfil, hall⟩
        · left
          simp [List.filter_cons, hmcalive, hfil]
        · right
          refine ⟨mc :: ms₀, mlast, by simp [hms], hdead, ?_, ?_⟩
          · simp [List.filter_cons, hmcalive, hfil]
          · intro x hx
            rcases List.mem_cons.mp hx with rfl | hx
            · exact hmcalive
            · exact hall x hx

theorem extract_no_lonely (t : Nat) (m : Bool) :
    ∀ o : DuNode, Pruned t m o → ∀ mt : MNode, Shadow t m o mt →
      NoLonely (MNode.extract mt) := by
  apply DuNode.myInd
  · intro p k a u _ mt hsh
    cases hsh with
    | leaf p k a u a₂ u₂ d _ => exact NoLonely.leaf _ _ _ _
  · intro p cs ih hp mt hsh
    cases hsh with
    | branch _ _ ms hf =>
      cases hp with
      | branch _ _ htot hall hshape =>
        obtain ⟨ha, hb, hc⟩ := hshape
        simp only [MNode.extract]
        refine NoLonely.branch p _ ?_ ?_
        · intro x hx
          have hdl : ∀ c ∈ cs.dropLast, ¬ DuNode.metricSel m c < t :=
            fun c hcd => not_lt.2 (ha c hcd)
          rw [extract_list_eq_filter] at hx
          rcases alive_filter t m cs ms hf hdl with hfil | ⟨ms₀, mlast, hms, hdead, hfil, -⟩
          · rw [hfil] at hx
            rcases ms with - | ⟨m₀, - | ⟨m₁, ms₂⟩⟩
            · simp at hx
            · simp only [List.map_cons, List.map_nil, List.cons.injEq, and_true] at hx
              cases hf with
              | cons hR hF =>
                cases hF
                rw [← hx, shadow_extract_isMixed hR]
                exact hc _ rfl
            · simp at hx
          · subst hms
            rw [hfil] at hx
            rcases ms₀ with - | ⟨m₀, - | ⟨m₁, ms₂⟩⟩
            · simp at hx
            · simp only [List.map_cons, List.map_nil, List.cons.injEq, and_true] at hx
              rcases List.forall₂_cons_right_iff.mp hf with ⟨c₀, cs₀, hR₀, hf₂, rfl⟩
              rcases List.forall₂_cons_right_iff.mp hf₂ with ⟨c₁, cs₁, hR₁, hf₃, rfl⟩
              cases hf₃
              rcases shadow_dead_small hR₁ hdead with ⟨-, hsm⟩
              rcases hb _ rfl hsm with ⟨-, ⟨pr, hpr, hprmix⟩⟩
              have hpr₀ : pr = c₀ := by symm; simpa using hpr
              rw [← hx, shadow_extract_isMixed hR₀, ← hpr₀]
              exact hprmix
            · simp at hx
        · intro y hy
          rcases mem_extract_list ms y hy with ⟨mc, hmc, rfl⟩
          rcases forall₂_mem_right hf mc hmc with ⟨c, hcmem, hS⟩
          exact ih c hcmem (hall c hcmem) mc hS

theorem merge_fold_shadow (t : Nat) (m : Bool) (o : DuNode) :
    Shadow t m o (((DuNode.findSmallPos t m o).foldl
      (fun acc pos => ((MNode.stepM acc.1 pos).1, acc.2 && (MNode.stepM acc.1 pos).2))
      (o.toM, true)).1) := by
  have key : ∀ (ps : List (List Nat)), (∀ q ∈ ps, q ∈ DuNode.findSmallPos t m o) →
      ∀ acc : MNode × Bool, Shadow t m o acc.1 →
      Shadow t m o ((ps.foldl
        (fun acc pos => ((MNode.stepM acc.1 pos).1, acc.2 && (MNode.stepM acc.1 pos).2))
        acc).1) := by
    intro ps
    induction ps with
    | nil => intro _ acc h; exact h
    | cons q ps ih =>
      intro hmem acc h
      simp only [List.foldl_cons]
      exact ih (fun r hr => hmem r (by simp [hr])) _
        (shadow_step t m o acc.1 q h (hmem q (by simp)))
  exact key _ (fun q hq => hq) _ (shadow_toM t m o)

/-- After pruning with any threshold, the merge pass cannot leave a
directory with exactly one mixed child anywhere in the tree. -/
theorem no_lonely_merge_prune (t : Nat) (m : Bool) (n : DuNode) :
    NoLonely ((DuNode.merge_upwards_if_smaller_than t m
      (DuNode.prune_if_smaller_than t m n)).1) := by
  unfold DuNode.merge_upwards_if_smaller_than
  dsimp only
  exact extract_no_lonely t m _ (prune_pruned t m n) _ (merge_fold_shadow t m _)

theorem pruned_small_leaves (t : Nat) (m : Bool) :
    ∀ n, Pruned t m n → SmallLeavesGood t m n := by
  apply DuNode.myInd
  · intro p k a u _
    exact SmallLeavesGood.leaf _ _ _ _
  · intro p cs ih hp
    cases hp with
    | branch _ _ htot hall hshape =>
      obtain ⟨ha, hb, hc⟩ := hshape
      refine SmallLeavesGood.branch p cs ?_ (fun c hcm => ih c hcm (hall c hcm))
      intro c hcm hcleaf hcsm
      rcases hlast : cs.getLast? with - | la
      · rw [List.getLast?_eq_none_iff] at hlast
        subst hlast
        simp at hcm
      · have hdec := getLast?_decomp hlast
        rw [← hdec] at hcm
        rcases List.mem_append.mp hcm with hcm | hcm
        · exact absurd hcsm (not_lt.2 (ha c hcm))
        · simp only [List.mem_singleton] at hcm
          subst hcm
          rcases hb c hlast hcsm with ⟨⟨a, u, hcanon, -⟩, ⟨pr, hpr, hprmix⟩⟩
          have hprmem : pr ∈ cs := by
            have h₂ := getLast?_decomp hpr
            have : pr ∈ cs.dropLast := by rw [← h₂]; simp
            exact List.dropLast_subset cs this
          refine ⟨?_, pr, hprmem, hprmix⟩
          rw [hcanon]
          rfl

theorem pruned_subtree (t : Nat) (m : Bool) :
    ∀ (q : List Nat) (o x : DuNode), Pruned t m o →
      DuNode.getNodeD o q = some x → Pruned t m x := by
  intro q
  induction q with
  | nil =>
    intro o x hp hx
    simp only [DuNode.getNodeD, Option.some_inj] at hx
    subst hx
    exact hp
  | cons i q ih =>
    intro o x hp hx
    cases o with
    | leaf p k a u => simp [DuNode.getNodeD] at hx
    | branch p cs =>
      simp only [DuNode.getNodeD, getNodeD_list_eq] at hx
      rcases hg : cs.get? i with - | c
      · rw [hg] at hx; simp at hx
      · rw [hg] at hx
        simp only [Option.some_bind] at hx
        cases hp with
        | branch _ _ htot hall hshape =>
          exact ih c x (hall c (List.get?_mem hg)) hx

theorem stepM_ok (t : Nat) (m : Bool) (o : DuNode) (mt : MNode) (pos : List Nat)
    (ho : Pruned t m o) (hsh : Shadow t m o mt)
    (hpos : pos ∈ DuNode.findSmallPos t m o) :
    (MNode.stepM mt pos).2 = true := by
  rcases findSmall_spec t m o pos hpos with ⟨po, ko, ao, uo, hgeto, hsmo⟩
  unfold MNode.stepM
  dsimp only
  split
  · rfl
  case _ hlen =>
  split
  case _ pa k a u h1 =>
    split
    case _ gp gcs h2 =>
      split
      case _ j h3 =>
        split
        case _ tp ta tu h4 =>
          -- names for the decomposition of pos
          have hne : pos ≠ [] := by
            intro h
            subst h
            simp at hlen
          have hsplit1 : pos.dropLast ++ [pos.getLast hne] = pos :=
            List.dropLast_append_getLast hne
          -- the parent node in the pruned tree
          have hparent : ∃ pp pcs₀, DuNode.getNodeD o pos.dropLast =
              some (DuNode.branch pp pcs₀) ∧
              pcs₀.get? (pos.getLast hne) = some (DuNode.leaf po ko ao uo) := by
            rw [← hsplit1, getNodeD_append] at hgeto
            rcases hpar : DuNode.getNodeD o pos.dropLast with - | par
            · rw [hpar] at hgeto; simp at hgeto
            · rw [hpar] at hgeto
              simp only [Option.some_bind] at hgeto
              cases par with
              | leaf pp kk aa uu => simp [DuNode.getNodeD] at hgeto
              | branch pp pcs₀ =>
                refine ⟨pp, pcs₀, rfl, ?_⟩
                simp only [DuNode.getNodeD, getNodeD_list_eq] at hgeto
                rcases hg : pcs₀.get? (pos.getLast hne) with - | c
                · rw [hg] at hgeto; simp at hgeto
                · rw [hg] at hgeto
                  simp only [Option.some_bind] at hgeto
                  cases c with
                  | leaf cp ck ca cu =>
                    have hgeq : DuNode.leaf cp ck ca cu = DuNode.leaf po ko ao uo := by
                      simpa [DuNode.getNodeD] using hgeto
                    exact congrArg some hgeq
                  | branch _ _ => simp [DuNode.getNodeD] at hgeto
          rcases hparent with ⟨pp, pcs₀, hpar, hget⟩
          have hppruned : Pruned t m (DuNode.branch pp pcs₀) :=
            pruned_subtree t m pos.dropLast o _ ho hpar
          -- the small leaf sits at the end of a list of length at least two
          have hfacts : 2 ≤ pcs₀.length ∧
              (∀ c ∈ pcs₀.dropLast, ¬ DuNode.metricSel m c < t) := by
            cases hppruned with
            | branch _ _ htot hall hshape =>
              obtain ⟨ha, hb, -⟩ := hshape
              have hmem : DuNode.leaf po ko ao uo ∈ pcs₀ := List.get?_mem hget
              rcases hlast : pcs₀.getLast? with - | la
              · rw [List.getLast?_eq_none_iff] at hlast
                subst hlast
                simp at hmem
              · have hdec := getLast?_decomp hlast
                rw [← hdec] at hmem
                rcases List.mem_append.mp hmem with hmm | hmm
                · exact absurd hsmo (not_lt.2 (ha _ hmm))
                · simp only [List.mem_singleton] at hmm
                  rcases hb la hlast (by rw [← hmm]; exact hsmo) with
                    ⟨-, ⟨pr, hpr, -⟩⟩
                  have hdlne : pcs₀.dropLast ≠ [] := by
                    intro hdl
                    rw [hdl] at hpr
                    simp at hpr
                  constructor
                  · have h₁ : 1 ≤ pcs₀.dropLast.length :=
                      List.length_pos.2 hdlne
                    have h₂ := List.length_dropLast pcs₀
                    omega
                  · exact fun c hcd => not_lt.2 (ha c hcd)
          -- the working tree after the two updates still shadows the tree
          have hsh₂ : Shadow t m o
              (MNode.updateAtM MNode.killM
                (MNode.updateAtM (MNode.addM a u) mt
                  (pos.dropLast.dropLast ++ [j])) pos) :=
            shadow_update_kill t m pos o _
              (shadow_update_addM t m a u _ o mt hsh)
              ⟨po, ko, ao, uo, hgeto, hsmo⟩
          rcases shadow_getNode pos.dropLast o _ hsh₂ _ hpar with ⟨y, hy, hSy⟩
          cases hSy with
          | branch _ _ pms hf =>
            simp only [hy]
            rw [decide_eq_true_eq]
            have hlen₂ := List.Forall₂.length_eq hf
            rcases alive_filter t m pcs₀ pms hf hfacts.2 with hfil | ⟨ms₀, mlast, hms, -, hfil, -⟩
            · rw [hfil]
              omega
            · rw [hfil]
              have : pms.length = ms₀.length + 1 := by rw [hms]; simp
              omega
        all_goals rfl
      case _ => rfl
    all_goals rfl
  all_goals rfl

/-- After pruning with any threshold, every removal of the merge pass
leaves the parent's child list non-empty: the assertion of
`merge_upwards_if_smaller_than` cannot fail. -/
theorem merge_asserts_ok (t : Nat) (m : Bool) (n : DuNode) :
    (DuNode.merge_upwards_if_smaller_than t m
      (DuNode.prune_if_smaller_than t m n)).2 = true := by
  unfold DuNode.merge_upwards_if_smaller_than
  dsimp only
  have key : ∀ (ps : List (List Nat)),
      (∀ q ∈ ps, q ∈ DuNode.findSmallPos t m (DuNode.prune_if_smaller_than t m n)) →
      ∀ acc : MNode × Bool,
        Shadow t m (DuNode.prune_if_smaller_than t m n) acc.1 → acc.2 = true →
      Shadow t m (DuNode.prune_if_smaller_than t m n)
        ((ps.foldl (fun acc pos =>
          ((MNode.stepM acc.1 pos).1, acc.2 && (MNode.stepM acc.1 pos).2)) acc).1) ∧
      ((ps.foldl (fun acc pos =>
          ((MNode.stepM acc.1 pos).1, acc.2 && (MNode.stepM acc.1 pos).2)) acc).2) = true := by
    intro ps
    induction ps with
    | nil => exact fun _ acc h hb => ⟨h, hb⟩
    | cons q ps ih =>
      intro hmem acc hS hb
      simp only [List.foldl_cons]
      apply ih (fun r hr => hmem r (by simp [hr]))
      · exact shadow_step t m _ acc.1 q hS (hmem q (by simp))
      · rw [Bool.and_eq_true]
        exact ⟨hb, stepM_ok t m _ acc.1 q (prune_pruned t m n) hS (hmem q (by simp))⟩
  exact (key _ (fun q hq => hq) _ (shadow_toM t m _) rfl).2

/-! ### Scanner invariants -/

theorem EventsOK_nil (m : Bool) (lo hi : Nat) : EventsOK m lo hi [] :=
  ⟨by simp, by simp⟩

theorem EventsOK_widen {m : Bool} {lo hi lo₂ hi₂ : Nat} {Δ : List ScanEvent}
    (h : EventsOK m lo hi Δ) (hlo : lo₂ ≤ lo) (hhi : hi ≤ hi₂) :
    EventsOK m lo₂ hi₂ Δ := by
  obtain ⟨hmem, hsort⟩ := h
  refine ⟨fun e he => ?_, hsort⟩
  rcases hmem e he with ⟨h1, h2, h3⟩
  exact ⟨h1, le_trans hlo h2, le_trans h3 hhi⟩

theorem EventsOK_append {m : Bool} {lo mid hi : Nat} {Δ₁ Δ₂ : List ScanEvent}
    (h₁ : EventsOK m lo mid Δ₁) (h₂ : EventsOK m mid hi Δ₂)
    (hlm : lo ≤ mid) (hmh : mid ≤ hi) :
    EventsOK m lo hi (Δ₁ ++ Δ₂) := by
  obtain ⟨hm₁, hs₁⟩ := h₁
  obtain ⟨hm₂, hs₂⟩ := h₂
  constructor
  · intro e he
    rcases List.mem_append.mp he with he | he
    · rcases hm₁ e he with ⟨h1, h2, h3⟩
      exact ⟨h1, h2, le_trans h3 hmh⟩
    · rcases hm₂ e he with ⟨h1, h2, h3⟩
      exact ⟨h1, le_trans hlm h2, h3⟩
  · rw [List.map_append]
    rw [List.Sorted, List.pairwise_append]
    refine ⟨hs₁, hs₂, ?_⟩
    intro a ha b hb
    rcases List.mem_map.mp ha with ⟨e₁, he₁, rfl⟩
    rcases List.mem_map.mp hb with ⟨e₂, he₂, rfl⟩
    exact le_trans (hm₁ e₁ he₁).2.2 (hm₂ e₂ he₂).2.1

theorem EventsOK_single {m : Bool} {lo hi : Nat} (f a u : Nat)
    (hf : f = sel m u a / 20) (hlo : lo ≤ sel m u a) (hhi : sel m u a ≤ hi) :
    EventsOK m lo hi [⟨f, a, u⟩] := by
  refine ⟨fun e he => ?_, by simp⟩
  simp only [List.mem_singleton] at he
  subst he
  exact ⟨hf, hlo, hhi⟩

theorem duScanFinish_spec (m : Bool) (p : String) (acc : InnerAcc) :
    (duScanFinish m p acc).fraction = acc.fraction ∧
      (duScanFinish m p acc).st.appSubtotal = acc.st.appSubtotal ∧
      (duScanFinish m p acc).st.useSubtotal = acc.st.useSubtotal ∧
      (duScanFinish m p acc).st.events =
        acc.st.events ++ [⟨acc.fraction, acc.st.appSubtotal, acc.st.useSubtotal⟩] ∧
      (duScanFinish m p acc).st.warnings = acc.st.warnings := by
  unfold duScanFinish
  dsimp only
  split <;> simp [pushEvent]

theorem duScanFinish_sum (m : Bool) (p : String) (acc : InnerAcc) :
    ∀ nd, (duScanFinish m p acc).keep = some nd →
      nd.app_size = DuNode.app_size_list acc.children + acc.appMixed ∧
      nd.use_size = DuNode.use_size_list acc.children + acc.useMixed ∧
      (duScanFinish m p acc).appLeft = 0 ∧ (duScanFinish m p acc).useLeft = 0 := by
  unfold duScanFinish
  dsimp only
  split
  case _ hcond =>
    intro nd hnd
    simp only [pushEvent, Option.some_inj] at hnd
    subst hnd
    split
    case _ hch =>
      refine ⟨?_, ?_, rfl, rfl⟩
      · simp [DuNode.app_size, app_size_list_append, DuNode.app_size_list,
          DuNode.new_leftovers]
      · simp [DuNode.use_size, use_size_list_append, DuNode.use_size_list,
          DuNode.new_leftovers]
    case _ hch =>
      have : acc.children = [] := by
        rcases h : acc.children with - | ⟨c, cs⟩
        · rfl
        · rw [h] at hch
          simp at hch
      refine ⟨?_, ?_, rfl, rfl⟩ <;>
        simp [this, DuNode.app_size, DuNode.use_size, DuNode.app_size_list,
          DuNode.use_size_list]
  case _ =>
    intro nd hnd
    simp at hnd

theorem duScanFinish_left (m : Bool) (p : String) (acc : InnerAcc) :
    (duScanFinish m p acc).keep = none →
      (duScanFinish m p acc).appLeft = acc.appMixed ∧
      (duScanFinish m p acc).useLeft = acc.useMixed ∧ acc.children = [] := by
  unfold duScanFinish
  dsimp only
  split
  · intro h
    simp at h
  case _ hcond =>
    intro _
    push_neg at hcond
    rcases hcond with ⟨hA, -⟩
    refine ⟨rfl, rfl, ?_⟩
    rcases hch : acc.children with - | ⟨c, cs⟩
    · rfl
    · exact absurd (by simp [pushEvent, hch]) hA

mutual
theorem duScan_sum (m : Bool) (pathname : String)
    (listing : Option (List (String × FSNode))) (st : ScanState) :
    (∀ nd, (duScan m pathname listing st).keep = some nd →
      (duScan m pathname listing st).st.appSubtotal = st.appSubtotal + nd.app_size ∧
      (duScan m pathname listing st).st.useSubtotal = st.useSubtotal + nd.use_size ∧
      (duScan m pathname listing st).appLeft = 0 ∧
      (duScan m pathname listing st).useLeft = 0) ∧
    ((duScan m pathname listing st).keep = none →
      (duScan m pathname listing st).st.appSubtotal =
        st.appSubtotal + (duScan m pathname listing st).appLeft ∧
      (duScan m pathname listing st).st.useSubtotal =
        st.useSubtotal + (duScan m pathname listing st).useLeft) := by
  unfold duScan
  match listing with
  | none =>
    constructor
    · intro nd hnd
      rcases duScanFinish_sum m pathname _ nd hnd with ⟨h1, h2, h3, h4⟩
      rcases duScanFinish_spec m pathname _ with ⟨-, happ, huse, -, -⟩
      refine ⟨?_, ?_, h3, h4⟩
      · rw [happ, h1]
        simp [DuNode.app_size_list]
      · rw [huse, h2]
        simp [DuNode.use_size_list]
    · intro hnone
      rcases duScanFinish_left m pathname _ hnone with ⟨h1, h2, -⟩
      rcases duScanFinish_spec m pathname _ with ⟨-, happ, huse, -, -⟩
      constructor
      · rw [happ, h1]
        simp
      · rw [huse, h2]
        simp
  | some entries =>
    have hin := duScanInner_sum m pathname entries
      { children := [], appMixed := 0, useMixed := 0,
        fraction := sel m st.useSubtotal st.appSubtotal / 20, st := st }
    constructor
    · intro nd hnd
      rcases duScanFinish_sum m pathname _ nd hnd with ⟨h1, h2, h3, h4⟩
      rcases duScanFinish_spec m pathname _ with ⟨-, happ, huse, -, -⟩
      refine ⟨?_, ?_, h3, h4⟩
      · rw [happ, h1]
        simp only [DuNode.app_size_list] at hin
        omega
      · rw [huse, h2]
        simp only [DuNode.use_size_list] at hin
        omega
    · intro hnone
      rcases duScanFinish_left m pathname _ hnone with ⟨h1, h2, hch⟩
      rcases duScanFinish_spec m pathname _ with ⟨-, happ, huse, -, -⟩
      rw [hch] at hin
      simp only [DuNode.app_size_list, DuNode.use_size_list] at hin
      constructor
      · rw [happ, h1]
        omega
      · rw [huse, h2]
        omega
termination_by sizeOf listing

theorem duScanInner_sum (m : Bool) (pathname : String)
    (entries : List (String × FSNode)) (acc : InnerAcc) :
    (duScanInner m pathname entries acc).st.appSubtotal +
        DuNode.app_size_list acc.children + acc.appMixed =
      acc.st.appSubtotal +
        DuNode.app_size_list (duScanInner m pathname entries acc).children +
        (duScanInner m pathname entries acc).appMixed ∧
    (duScanInner m pathname entries acc).st.useSubtotal +
        DuNode.use_size_list acc.children + acc.useMixed =
      acc.st.useSubtotal +
        DuNode.use_size_list (duScanInner m pathname entries acc).children +
        (duScanInner m pathname entries acc).useMixed := by
  match entries with
  | [] => exact ⟨by simp [duScanInner], by simp [duScanInner]⟩
  | e :: rest =>
    have h1 := duScanEntry_sum m pathname e acc
    have h2 := duScanInner_sum m pathname rest (duScanEntry m pathname e acc)
    rw [duScanInner]
    exact ⟨by omega, by omega⟩
termination_by sizeOf entries

theorem duScanEntry_sum (m : Bool) (pathname : String)
    (e : String × FSNode) (acc : InnerAcc) :
    (duScanEntry m pathname e acc).st.appSubtotal +
        DuNode.app_size_list acc.children + acc.appMixed =
      acc.st.appSubtotal +
        DuNode.app_size_list (duScanEntry m pathname e acc).children +
        (duScanEntry m pathname e acc).appMixed ∧
    (duScanEntry m pathname e acc).st.useSubtotal +
        DuNode.use_size_list acc.children + acc.useMixed =
      acc.st.useSubtotal +
        DuNode.use_size_list (duScanEntry m pathname e acc).children +
        (duScanEntry m pathname e acc).useMixed := by
  match e with
  | (nm, FSNode.gone) => exact ⟨by simp [duScanEntry], by simp [duScanEntry]⟩
  | (nm, FSNode.reg size blocks) =>
    unfold duScanEntry
    dsimp only
    split
    all_goals split
    all_goals
      constructor <;>
        simp [recalcFraction, pushEvent, app_size_list_append, use_size_list_append,
          DuNode.app_size_list, DuNode.use_size_list, DuNode.app_size, DuNode.use_size] <;>
        omega
  | (nm, FSNode.dir size blocks sub) =>
    have hrec := duScan_sum m (pathname ++ "/" ++ nm) sub acc.st
    unfold duScanEntry
    dsimp only
    rcases hk : (duScan m (pathname ++ "/" ++ nm) sub acc.st).keep with - | child
    · simp only [hk]
      rcases hrec.2 hk with ⟨ha, hu⟩
      constructor <;> simp [recalcFraction] <;> omega
    · simp only [hk]
      rcases hrec.1 child hk with ⟨ha, hu, -, -⟩
      constructor <;>
        simp [recalcFraction, app_size_list_append, use_size_list_append,
          DuNode.app_size_list, DuNode.use_size_list] <;>
        omega
  | (nm, FSNode.other size blocks) =>
    exact ⟨by simp [duScanEntry, recalcFraction]; omega,
      by simp [duScanEntry, recalcFraction]; omega⟩
termination_by sizeOf e
end

theorem sel_le_sel (m : Bool) (u a u₂ a₂ : Nat) (hu : u ≤ u₂) (ha : a ≤ a₂) :
    sel m u a ≤ sel m u₂ a₂ := by
  cases m <;> simpa [sel]

mutual
/-- `_scan` keeps the fraction equal to the selected subtotal divided by
20, grows the subtotals, and appends well-formed decision events. -/
theorem duScan_frac (m : Bool) (pathname : String)
    (listing : Option (List (String × FSNode))) (st : ScanState) :
    st.appSubtotal ≤ (duScan m pathname listing st).st.appSubtotal ∧
    st.useSubtotal ≤ (duScan m pathname listing st).st.useSubtotal ∧
    (duScan m pathname listing st).fraction =
      sel m (duScan m pathname listing st).st.useSubtotal
        (duScan m pathname listing st).st.appSubtotal / 20 ∧
    ∃ Δ, (duScan m pathname listing st).st.events = st.events ++ Δ ∧
      EventsOK m (sel m st.useSubtotal st.appSubtotal)
        (sel m (duScan m pathname listing st).st.useSubtotal
          (duScan m pathname listing st).st.appSubtotal) Δ := by
  unfold duScan
  match listing with
  | none =>
    rcases duScanFinish_spec m pathname
      { children := [], appMixed := 0, useMixed := 0,
        fraction := sel m st.useSubtotal st.appSubtotal / 20,
        st := { st with warnings := st.warnings + 1 } }
      with ⟨hf, happ, huse, hev, -⟩
    refine ⟨?_, ?_, ?_,
      [⟨sel m st.useSubtotal st.appSubtotal / 20, st.appSubtotal, st.useSubtotal⟩], ?_, ?_⟩
    · rw [happ]
    · rw [huse]
    · rw [hf, happ, huse]
    · rw [hev]
    · rw [happ, huse]
      exact EventsOK_single _ _ _ rfl (le_refl _) (le_refl _)
  | some entries =>
    obtain ⟨hA, hU, hF, Δ, hE, hOK⟩ := duScanInner_frac m pathname entries
      { children := [], appMixed := 0, useMixed := 0,
        fraction := sel m st.useSubtotal st.appSubtotal / 20, st := st } rfl
    set I := duScanInner m pathname entries
      { children := [], appMixed := 0, useMixed := 0,
        fraction := sel m st.useSubtotal st.appSubtotal / 20, st := st } with hI
    rcases duScanFinish_spec m pathname I with ⟨hf, happ, huse, hev, -⟩
    refine ⟨?_, ?_, ?_,
      Δ ++ [⟨I.fraction, I.st.appSubtotal, I.st.useSubtotal⟩], ?_, ?_⟩
    · rw [happ]
      exact hA
    · rw [huse]
      exact hU
    · rw [hf, happ, huse]
      exact hF
    · rw [hev, hE]
      simp
    · rw [happ, huse]
      exact EventsOK_append hOK
        (EventsOK_single _ _ _ hF (le_refl _) (le_refl _))
        (sel_le_sel m _ _ _ _ hU hA) (le_refl _)
termination_by sizeOf listing

/-- The entry loop preserves the fraction invariant. -/
theorem duScanInner_frac (m : Bool) (pathname : String)
    (entries : List (String × FSNode)) (acc : InnerAcc)
    (hfr : acc.fraction = sel m acc.st.useSubtotal acc.st.appSubtotal / 20) :
    acc.st.appSubtotal ≤ (duScanInner m pathname entries acc).st.appSubtotal ∧
    acc.st.useSubtotal ≤ (duScanInner m pathname entries acc).st.useSubtotal ∧
    (duScanInner m pathname entries acc).fraction =
      sel m (duScanInner m pathname entries acc).st.useSubtotal
        (duScanInner m pathname entries acc).st.appSubtotal / 20 ∧
    ∃ Δ, (duScanInner m pathname entries acc).st.events = acc.st.events ++ Δ ∧
      EventsOK m (sel m acc.st.useSubtotal acc.st.appSubtotal)
        (sel m (duScanInner m pathname entries acc).st.useSubtotal
          (duScanInner m pathname entries acc).st.appSubtotal) Δ := by
  match entries with
  | [] =>
    simp only [duScanInner]
    exact ⟨le_refl _, le_refl _, hfr, [], by simp, EventsOK_nil m _ _⟩
  | e :: rest =>
    obtain ⟨hA1, hU1, hF1, Δ₁, hE1, hOK1⟩ := duScanEntry_frac m pathname e acc hfr
    obtain ⟨hA2, hU2, hF2, Δ₂, hE2, hOK2⟩ :=
      duScanInner_frac m pathname rest (duScanEntry m pathname e acc) hF1
    rw [duScanInner]
    refine ⟨le_trans hA1 hA2, le_trans hU1 hU2, hF2, Δ₁ ++ Δ₂, ?_, ?_⟩
    · rw [hE2, hE1, List.append_assoc]
    · exact EventsOK_append hOK1 hOK2
        (sel_le_sel m _ _ _ _ hU1 hA1) (sel_le_sel m _ _ _ _ hU2 hA2)
termination_by sizeOf entries

/-- A single entry preserves the fraction invariant: the event it records
(if any) carries the fraction in effect, which equals the subtotal at that
moment divided by 20. -/
theorem duScanEntry_frac (m : Bool) (pathname : String)
    (e : String × FSNode) (acc : InnerAcc)
    (hfr : acc.fraction = sel m acc.st.useSubtotal acc.st.appSubtotal / 20) :
    acc.st.appSubtotal ≤ (duScanEntry m pathname e acc).st.appSubtotal ∧
    acc.st.useSubtotal ≤ (duScanEntry m pathname e acc).st.useSubtotal ∧
    (duScanEntry m pathname e acc).fraction =
      sel m (duScanEntry m pathname e acc).st.useSubtotal
        (duScanEntry m pathname e acc).st.appSubtotal / 20 ∧
    ∃ Δ, (duScanEntry m pathname e acc).st.events = acc.st.events ++ Δ ∧
      EventsOK m (sel m acc.st.useSubtotal acc.st.appSubtotal)
        (sel m (duScanEntry m pathname e acc).st.useSubtotal
          (duScanEntry m pathname e acc).st.appSubtotal) Δ := by
  match e with
  | (nm, FSNode.gone) =>
    refine ⟨?_, ?_, ?_, [], ?_, EventsOK_nil m _ _⟩ <;> simp [duScanEntry, hfr]
  | (nm, FSNode.reg size blocks) =>
    unfold duScanEntry
    dsimp only
    split
    all_goals split
    all_goals (
      refine ⟨?_, ?_, ?_,
        [⟨acc.fraction, acc.st.appSubtotal, acc.st.useSubtotal⟩], ?_, ?_⟩ <;>
      first
        | (simp [recalcFraction, pushEvent] <;> omega)
        | (refine EventsOK_single _ _ _ hfr (le_refl _) ?_
           cases m <;> simp [sel, recalcFraction, pushEvent]))
  | (nm, FSNode.dir size blocks sub) =>
    obtain ⟨hA, hU, hF, Δ, hE, hOK⟩ := duScan_frac m (pathname ++ "/" ++ nm) sub acc.st
    unfold duScanEntry
    dsimp only
    rcases hk : (duScan m (pathname ++ "/" ++ nm) sub acc.st).keep with - | child
    · simp only [hk]
      refine ⟨?_, ?_, ?_, Δ, ?_, ?_⟩
      · simp only [recalcFraction]
        omega
      · simp only [recalcFraction]
        omega
      · simp [recalcFraction]
      · simp only [recalcFraction]
        exact hE
      · simp only [recalcFraction]
        exact EventsOK_widen hOK (le_refl _)
          (sel_le_sel m _ _ _ _ (Nat.le_add_right _ _) (Nat.le_add_right _ _))
    · simp only [hk]
      refine ⟨?_, ?_, ?_, Δ, ?_, ?_⟩
      · simp only [recalcFraction]
        omega
      · simp only [recalcFraction]
        omega
      · simp [recalcFraction]
      · simp only [recalcFraction]
        exact hE
      · simp only [recalcFraction]
        exact EventsOK_widen hOK (le_refl _)
          (sel_le_sel m _ _ _ _ (Nat.le_add_right _ _) (Nat.le_add_right _ _))
  | (nm, FSNode.other size blocks) =>
    refine ⟨?_, ?_, ?_, [], ?_, EventsOK_nil m _ _⟩ <;>
      simp [duScanEntry, recalcFraction]
termination_by sizeOf e
end

/-- Events whose every fraction is its subtotal over 20, listed in
subtotal order, have non-decreasing fractions. -/
theorem frac_sorted {m : Bool} {lo hi : Nat} {Δ : List ScanEvent}
    (h : EventsOK m lo hi Δ) :
    (Δ.map ScanEvent.fraction).Sorted (· ≤ ·) := by
  obtain ⟨hmem, hsort⟩ := h
  rw [List.Sorted, List.pairwise_map]
  rw [List.Sorted, List.pairwise_map] at hsort
  refine hsort.imp_of_mem ?_
  intro a b ha hb hab
  rw [(hmem a ha).1, (hmem b hb).1]
  exact Nat.div_le_div_right hab

/-- A block count shifted left by nine bits is the count times 512. -/
theorem shiftLeft_nine (b : Nat) : b <<< 9 = b * 512 := by
  rw [Nat.shiftLeft_eq]

/-- A directory whose listing fails still passes its own stat sizes and
zero leftovers back to the caller, after recording one warning. -/
theorem duScan_none_spec (m : Bool) (p : String) (st : ScanState) :
    (duScan m p none st).st.appSubtotal = st.appSubtotal ∧
    (duScan m p none st).st.useSubtotal = st.useSubtotal ∧
    (duScan m p none st).st.warnings = st.warnings + 1 ∧
    (duScan m p none st).appLeft = 0 ∧ (duScan m p none st).useLeft = 0 := by
  unfold duScan duScanFinish
  dsimp only
  split <;> simp [pushEvent]

/-- C2: the threshold in effect at every recorded significance decision
equals the global running subtotal under the selected metric divided by
20, the sequence of thresholds used over the scan never decreases, and the
fraction returned at the end is the final subtotal divided by 20. -/
theorem C2_threshold (m : Bool) (pathname : String)
    (listing : Option (List (String × FSNode))) :
    ((duScan m pathname listing initState).st.events).Forall
      (fun e => e.fraction = evSub m e / 20) ∧
    (((duScan m pathname listing initState).st.events).map
      ScanEvent.fraction).Sorted (· ≤ ·) ∧
    (duScan m pathname listing initState).fraction =
      sel m (duScan m pathname listing initState).st.useSubtotal
        (duScan m pathname listing initState).st.appSubtotal / 20 := by
  obtain ⟨-, -, hF, Δ, hE, hOK⟩ := duScan_frac m pathname listing initState
  have hev : (duScan m pathname listing initState).st.events = Δ := by
    rw [hE]
    rfl
  refine ⟨?_, ?_, hF⟩
  · rw [hev, List.forall_iff_forall_mem]
    exact fun e he => (hOK.1 e he).1
  · rw [hev]
    exact frac_sorted hOK

/-- C7: a regular file with zero allocated blocks contributes nothing to
either subtotal or to the node's attributed sizes, its stat size ignored;
any other regular file adds its stat size to the apparent metric and its
block count times 512 to the used metric, in the subtotals and in the
node's attribution alike. -/
theorem C7_zero_block_files (m : Bool) (pathname nm : String)
    (size blocks : Nat) (acc : InnerAcc) :
    (blocks = 0 →
      (duScanEntry m pathname (nm, FSNode.reg size blocks) acc).st.appSubtotal =
        acc.st.appSubtotal ∧
      (duScanEntry m pathname (nm, FSNode.reg size blocks) acc).st.useSubtotal =
        acc.st.useSubtotal ∧
      DuNode.app_size_list (duScanEntry m pathname (nm, FSNode.reg size blocks) acc).children +
          (duScanEntry m pathname (nm, FSNode.reg size blocks) acc).appMixed =
        DuNode.app_size_list acc.children + acc.appMixed ∧
      DuNode.use_size_list (duScanEntry m pathname (nm, FSNode.reg size blocks) acc).children +
          (duScanEntry m pathname (nm, FSNode.reg size blocks) acc).useMixed =
        DuNode.use_size_list acc.children + acc.useMixed) ∧
    (blocks ≠ 0 →
      (duScanEntry m pathname (nm, FSNode.reg size blocks) acc).st.appSubtotal =
        acc.st.appSubtotal + size ∧
      (duScanEntry m pathname (nm, FSNode.reg size blocks) acc).st.useSubtotal =
        acc.st.useSubtotal + blocks * 512 ∧
      DuNode.app_size_list (duScanEntry m pathname (nm, FSNode.reg size blocks) acc).children +
          (duScanEntry m pathname (nm, FSNode.reg size blocks) acc).appMixed =
        DuNode.app_size_list acc.children + acc.appMixed + size ∧
      DuNode.use_size_list (duScanEntry m pathname (nm, FSNode.reg size blocks) acc).children +
          (duScanEntry m pathname (nm, FSNode.reg size blocks) acc).useMixed =
        DuNode.use_size_list acc.children + acc.useMixed + blocks * 512) := by
  constructor
  · intro h
    subst h
    unfold duScanEntry
    dsimp only
    simp only [reduceIte]
    split <;>
      refine ⟨?_, ?_, ?_, ?_⟩ <;>
        simp [recalcFraction, pushEvent, app_size_list_append, use_size_list_append,
          DuNode.app_size_list, DuNode.use_size_list, DuNode.app_size, DuNode.use_size]
  · intro h
    unfold duScanEntry
    dsimp only
    simp only [if_neg h]
    split <;>
      refine ⟨?_, ?_, ?_, ?_⟩ <;>
        simp [recalcFraction, pushEvent, shiftLeft_nine, app_size_list_append,
          use_size_list_append, DuNode.app_size_list, DuNode.use_size_list,
          DuNode.app_size, DuNode.use_size] <;>
        omega

/-- Applying the zero-block rule at a concrete zero-block file and a
concrete one-block file. -/
theorem C7_zero_block_files_witness :
    ((duScanEntry false "/r" ("p", FSNode.reg 7 0)
        { children := [], appMixed := 0, useMixed := 0, fraction := 0,
          st := initState }).st.appSubtotal = 0 ∧
      (duScanEntry false "/r" ("p", FSNode.reg 7 0)
        { children := [], appMixed := 0, useMixed := 0, fraction := 0,
          st := initState }).st.useSubtotal = 0) ∧
    ((duScanEntry false "/r" ("q", FSNode.reg 7 1)
        { children := [], appMixed := 0, useMixed := 0, fraction := 0,
          st := initState }).st.appSubtotal = 7 ∧
      (duScanEntry false "/r" ("q", FSNode.reg 7 1)
        { children := [], appMixed := 0, useMixed := 0, fraction := 0,
          st := initState }).st.useSubtotal = 512) := by
  have h0 := (C7_zero_block_files false "/r" "p" 7 0
    { children := [], appMixed := 0, useMixed := 0, fraction := 0,
      st := initState }).1 rfl
  have h1 := (C7_zero_block_files false "/r" "q" 7 1
    { children := [], appMixed := 0, useMixed := 0, fraction := 0,
      st := initState }).2 (by decide)
  exact ⟨⟨h0.1, h0.2.1⟩, ⟨h1.1, h1.2.1⟩⟩

/-- C8 counterexample: a directory entry whose listing fails is not
counted as zero — its own stat sizes still enter the subtotal (here 4096
apparent bytes), alongside the recorded warning. -/
theorem C8_counterexample :
    (duScanEntry false "/r" ("x", FSNode.dir 4096 8 none)
      { children := [], appMixed := 0, useMixed := 0, fraction := 0,
        st := initState }).st.appSubtotal = 4096 ∧
    (duScanEntry false "/r" ("x", FSNode.dir 4096 8 none)
      { children := [], appMixed := 0, useMixed := 0, fraction := 0,
        st := initState }).st.warnings = 1 := by
  constructor <;>
    simp [duScanEntry, duScan, duScanInner, duScanFinish, recalcFraction,
      pushEvent, initState, sel]

/-- C8 (amended): a stat failure records a warning and contributes nothing,
leaving the accumulator otherwise untouched; a directory-listing failure
records a warning and contributes exactly the directory's own stat sizes
(not zero) to the subtotals, and the scan continues either way. -/
theorem C8_per_entry_errors (m : Bool) (pathname nm : String)
    (size blocks : Nat) (acc : InnerAcc) :
    duScanEntry m pathname (nm, FSNode.gone) acc =
      { acc with st := { acc.st with warnings := acc.st.warnings + 1 } } ∧
    (duScanEntry m pathname (nm, FSNode.dir size blocks none) acc).st.appSubtotal =
      acc.st.appSubtotal + size ∧
    (duScanEntry m pathname (nm, FSNode.dir size blocks none) acc).st.useSubtotal =
      acc.st.useSubtotal + blocks * 512 ∧
    (duScanEntry m pathname (nm, FSNode.dir size blocks none) acc).st.warnings =
      acc.st.warnings + 1 := by
  obtain ⟨ha, hu, hw, -, -⟩ := duScan_none_spec m (pathname ++ "/" ++ nm) acc.st
  refine ⟨by simp [duScanEntry], ?_⟩
  unfold duScanEntry
  dsimp only
  rcases hk : (duScan m (pathname ++ "/" ++ nm) none acc.st).keep with - | child <;>
    simp only [hk] <;>
    exact ⟨by simp [recalcFraction, ha], by simp [recalcFraction, shiftLeft_nine, hu],
      by simp [recalcFraction, hw]⟩

/-- C9: a root path that does not denote a directory makes construction
fail with an error before any scanning, while a directory root constructs
a scanner that proceeds to scan the normalized path. -/
theorem C9_root_not_dir (m : Bool) (pathname : String) (root : FSNode) :
    (isDirF root = false →
      dutreeRun m pathname root =
        Except.error ("Path " ++ pathname ++ " is not a directory")) ∧
    (isDirF root = true →
      dutreeRun m pathname root = Except.ok (DuScan_scan m (normpath pathname) root)) := by
  constructor <;> intro h <;> simp [dutreeRun, DuScan_init, h]

/-- Applying the root check to a regular-file root and a directory root. -/
theorem C9_root_not_dir_witness :
    (isDirF (FSNode.reg 3 1) = false ∧
      dutreeRun false "/r" (FSNode.reg 3 1) =
        Except.error ("Path " ++ "/r" ++ " is not a directory")) ∧
    (isDirF (FSNode.dir 0 0 (some [])) = true ∧
      dutreeRun false "/r" (FSNode.dir 0 0 (some [])) =
        Except.ok (DuScan_scan false (normpath "/r") (FSNode.dir 0 0 (some [])))) :=
  ⟨⟨rfl, (C9_root_not_dir false "/r" (FSNode.reg 3 1)).1 rfl⟩,
    ⟨rfl, (C9_root_not_dir false "/r" (FSNode.dir 0 0 (some []))).2 rfl⟩⟩

/-- C5: any tree returned by the full scan — final prune and merge passes
included — has no directory whose child list is exactly one mixed node. -/
theorem C5_no_lonely_after_scan (m : Bool) (p : String) (root : FSNode)
    (tree : DuNode) (st : ScanState)
    (h : DuScan_scan m p root = some (tree, st)) : NoLonely tree := by
  unfold DuScan_scan at h
  dsimp only at h
  rcases hk : (duScan m p (listingOf root) initState).keep with - | nd
  · rw [hk] at h
    simp at h
  · rw [hk] at h
    dsimp only at h
    split at h
    · rw [Option.some_inj] at h
      have ht : tree = (DuNode.merge_upwards_if_smaller_than
          (duScan m p (listingOf root) initState).fraction m
          (DuNode.prune_if_smaller_than
            (duScan m p (listingOf root) initState).fraction m nd)).1 :=
        (congrArg Prod.fst h).symm
      rw [ht]
      exact no_lonely_merge_prune _ _ _
    · simp at h

/-- Scanning an empty directory returns a collapsed leaf, which has no
lonely mixed child anywhere. -/
theorem C5_no_lonely_after_scan_witness :
    DuScan_scan false "/r" (FSNode.dir 0 0 (some [])) =
      some (DuNode.leaf "/r" (some true) 0 0, ⟨0, 0, 0, [⟨0, 0, 0⟩]⟩) ∧
    NoLonely (DuNode.leaf "/r" (some true) 0 0) := by
  have hEq : DuScan_scan false "/r" (FSNode.dir 0 0 (some [])) =
      some (DuNode.leaf "/r" (some true) 0 0, ⟨0, 0, 0, [⟨0, 0, 0⟩]⟩) := by
    simp [DuScan_scan, duScan, duScanInner, duScanFinish, pushEvent, initState, sel,
      listingOf, DuNode.prune_if_smaller_than, DuNode.merge_upwards_if_smaller_than,
      DuNode.findSmallPos, DuNode.toM, MNode.extract]
  exact ⟨hEq, C5_no_lonely_after_scan false "/r" (FSNode.dir 0 0 (some []))
    (DuNode.leaf "/r" (some true) 0 0) ⟨0, 0, 0, [⟨0, 0, 0⟩]⟩ hEq⟩

/-- C10: in the tree the scan hands to the final merge pass — the kept
node pruned at the final fraction — every leaf below the threshold under
the selected metric is a mixed node whose parent also has a non-mixed
child, and every internal assertion of the merge pass succeeds. -/
theorem C10_merge_assert_safe (m : Bool) (p : String) (root : FSNode) (nd : DuNode)
    (h : (duScan m p (listingOf root) initState).keep = some nd) :
    SmallLeavesGood (duScan m p (listingOf root) initState).fraction m
      (DuNode.prune_if_smaller_than
        (duScan m p (listingOf root) initState).fraction m nd) ∧
    (DuNode.merge_upwards_if_smaller_than
      (duScan m p (listingOf root) initState).fraction m
      (DuNode.prune_if_smaller_than
        (duScan m p (listingOf root) initState).fraction m nd)).2 = true :=
  ⟨pruned_small_leaves _ m _ (prune_pruned _ m nd), merge_asserts_ok _ m nd⟩

/-- Applying the merge-safety result to the scan of an empty directory. -/
theorem C10_merge_assert_safe_witness :
    (duScan false "/r" (listingOf (FSNode.dir 0 0 (some []))) initState).keep =
      some (DuNode.leaf "/r" (some true) 0 0) ∧
    SmallLeavesGood (duScan false "/r" (listingOf (FSNode.dir 0 0 (some []))) initState).fraction
      false
      (DuNode.prune_if_smaller_than
        (duScan false "/r" (listingOf (FSNode.dir 0 0 (some []))) initState).fraction false
        (DuNode.leaf "/r" (some true) 0 0)) ∧
    (DuNode.merge_upwards_if_smaller_than
      (duScan false "/r" (listingOf (FSNode.dir 0 0 (some []))) initState).fraction false
      (DuNode.prune_if_smaller_than
        (duScan false "/r" (listingOf (FSNode.dir 0 0 (some []))) initState).fraction false
        (DuNode.leaf "/r" (some true) 0 0))).2 = true := by
  have hk : (duScan false "/r" (listingOf (FSNode.dir 0 0 (some []))) initState).keep =
      some (DuNode.leaf "/r" (some true) 0 0) := by
    simp [duScan, duScanInner, duScanFinish, pushEvent, initState, sel, listingOf]
  obtain ⟨h1, h2⟩ := C10_merge_assert_safe false "/r" (FSNode.dir 0 0 (some []))
    (DuNode.leaf "/r" (some true) 0 0) hk
  exact ⟨hk, h1, h2⟩

end Dutree